import Mathlib

/-!
Shallow embedding of the timeline construction engine of `src/js/timeline.js`
(class `TimelineProcessor`).  Every definition below is translated from the
JavaScript source; JavaScript object references into the `events` array are
modelled as indices (`Option Nat`), JavaScript `Map`s as association lists in
insertion order, numbers as rationals, and `undefined`/`null` as `Option`.
The regular expressions used by the source are embedded as explicit scanners
with the same matching semantics.
-/

namespace TimelineProc

/-- Whitespace class of JavaScript `\s` (ASCII part) used by `trim`,
`split(/\s+/)` and the parameter regex. -/
def isWS (c : Char) : Bool :=
  c = ' ' || c = '\t' || c = '\n' || c = '\r' || c = '\x0b' || c = '\x0c'

/-- JavaScript `\w` character class: `[A-Za-z0-9_]`. -/
def isWordChar (c : Char) : Bool := c.isAlphanum || c = '_'

/-- JavaScript `String.prototype.trim` on a character list. -/
def jsTrim (cs : List Char) : List Char :=
  ((cs.dropWhile isWS).reverse.dropWhile isWS).reverse

/-- Lowercasing of a character list (JavaScript `toLowerCase`, ASCII). -/
def toLowerL (cs : List Char) : List Char := cs.map Char.toLower

/-- Render a character list as a `String`. -/
def lstr (cs : List Char) : String := cs.asString

/-- `content.split('\n')`: split on newline characters, keeping empty pieces. -/
def splitLinesAux : List Char → List Char → List (List Char)
  | acc, [] => [acc.reverse]
  | acc, c :: rest =>
    if c = '\n' then acc.reverse :: splitLinesAux [] rest
    else splitLinesAux (c :: acc) rest

def splitLines (cs : List Char) : List (List Char) := splitLinesAux [] cs

/-- `startsWith` on character lists. -/
def startsWithL (pat cs : List Char) : Bool := cs.take pat.length = pat

/-- Case-insensitive `startsWith` (the pattern is given in lower case). -/
def ciStarts (pat cs : List Char) : Bool := toLowerL (cs.take pat.length) = pat

/-- Split at the first occurrence of character `c`: returns the part before it
and the part after it. -/
def splitAtChar (c : Char) : List Char → Option (List Char × List Char)
  | [] => none
  | x :: rest =>
    if x = c then some ([], rest)
    else (splitAtChar c rest).map (fun p => (x :: p.1, p.2))

theorem length_dropWhileLe (p : Char → Bool) :
    ∀ l : List Char, (l.dropWhile p).length ≤ l.length := by
  intro l
  induction l with
  | nil => simp [List.dropWhile]
  | cons x rest ih =>
    by_cases hx : p x
    · rw [List.dropWhile_cons_of_pos hx]
      simp
      omega
    · rw [List.dropWhile_cons_of_neg hx]

theorem splitAtChar_snd_length {c : Char} :
    ∀ {cs before after : List Char}, splitAtChar c cs = some (before, after) →
      after.length < cs.length := by
  intro cs
  induction cs with
  | nil => intro b a h; simp [splitAtChar] at h
  | cons x rest ih =>
    intro b a h
    by_cases hx : x = c
    · simp [splitAtChar, hx] at h
      simp [← h.2]
    · simp only [splitAtChar, if_neg hx, Option.map_eq_some'] at h
      rcases h with ⟨p, hp, hpair⟩
      have h2 := ih hp
      have ha : a = p.2 := by
        have := congrArg Prod.snd hpair
        simpa using this.symm
      rw [ha]
      simp
      omega

/-- Substring containment test (JavaScript `String.prototype.includes`). -/
def containsSub (pat : List Char) : List Char → Bool
  | [] => pat.isEmpty
  | c :: rest => startsWithL pat (c :: rest) || containsSub pat rest

/-! ## Parameter decoding

Embedding of the parameter regex
`/(\w+)\s*=\s*(?:"([^"]*)"|'([^']*)'|(\S+))/g` together with the JavaScript
assignment `params[k] = m[2] || m[3] || m[4]` (an empty quoted value is falsy
and therefore stored as `undefined`, i.e. `none`). -/

/-- Match one parameter value at the current position: a double-quoted or
single-quoted run, else a maximal run of non-whitespace characters.  Returns
the (possibly `none` for an empty quoted string) value and the rest of the
input; fails only when the input is empty. -/
def tryValue (cs : List Char) : Option (Option String × List Char) :=
  match cs with
  | [] => none
  | c :: rest =>
    if c = '"' then
      match splitAtChar '"' rest with
      | some (content, r) =>
        some ((if content.isEmpty then none else some (lstr content)), r)
      | none =>
        some (some (lstr (cs.takeWhile (fun d => !isWS d))),
              cs.dropWhile (fun d => !isWS d))
    else if c = '\'' then
      match splitAtChar '\'' rest with
      | some (content, r) =>
        some ((if content.isEmpty then none else some (lstr content)), r)
      | none =>
        some (some (lstr (cs.takeWhile (fun d => !isWS d))),
              cs.dropWhile (fun d => !isWS d))
    else if isWS c then none
    else
      some (some (lstr (cs.takeWhile (fun d => !isWS d))),
            cs.dropWhile (fun d => !isWS d))

theorem dropWhileNonWS_cons_lt {c : Char} {rest : List Char} (hc : isWS c = false) :
    ((c :: rest).dropWhile (fun d => !isWS d)).length < (c :: rest).length := by
  rw [List.dropWhile_cons_of_pos (by simp [hc])]
  have := length_dropWhileLe (fun d => !isWS d) rest
  simp
  omega

theorem tryValue_snd_length :
    ∀ {cs : List Char} {v r}, tryValue cs = some (v, r) → r.length < cs.length := by
  intro cs v r h
  match cs with
  | [] => simp [tryValue] at h
  | c :: rest =>
    simp only [tryValue] at h
    split at h
    · rename_i hq
      split at h
      · rename_i content r' hsp
        simp at h
        rcases h with ⟨hv, hr⟩
        subst hr
        have := splitAtChar_snd_length hsp
        simp
        omega
      · simp at h
        rw [← h.2]
        exact dropWhileNonWS_cons_lt (by rw [hq]; decide)
    · split at h
      · rename_i hq
        split at h
        · rename_i content r' hsp
          simp at h
          rcases h with ⟨hv, hr⟩
          subst hr
          have := splitAtChar_snd_length hsp
          simp
          omega
        · simp at h
          rw [← h.2]
          exact dropWhileNonWS_cons_lt (by rw [hq]; decide)
      · split at h
        · simp at h
        · rename_i hq1 hq2 hws
          simp at h
          rw [← h.2]
          exact dropWhileNonWS_cons_lt (by simpa using hws)

/-- Scan all `key=value` parameter occurrences, left to right, with the same
restart behaviour as the global regex. -/
def scanParamsF : Nat → List Char → List (String × Option String)
  | 0, _ => []
  | _, [] => []
  | fuel + 1, c :: rest =>
    if isWordChar c then
      match (rest.dropWhile isWordChar).dropWhile isWS with
      | '=' :: r2 =>
        match tryValue (r2.dropWhile isWS) with
        | some (v, r4) => (lstr (c :: rest.takeWhile isWordChar), v) :: scanParamsF fuel r4
        | none => []
      | _ => scanParamsF fuel (rest.dropWhile isWordChar)
    else scanParamsF fuel rest

def scanParams (cs : List Char) : List (String × Option String) :=
  scanParamsF (cs.length + 1) cs

/-- Read a parameter: the last assignment wins (later duplicate keys
overwrite earlier ones), and a falsy stored value reads as `undefined`. -/
def getParam (ps : List (String × Option String)) (k : String) : Option String :=
  match ps.reverse.find? (fun p => p.1 = k) with
  | some p => p.2
  | none => none

/-- JavaScript `v || d` for a decoded parameter value and a string default. -/
def jsOrStr (v : Option String) (d : String) : String :=
  match v with
  | some s => if s = "" then d else s
  | none => d

/-- JavaScript truthiness of a decoded parameter value. -/
def jsTruthy (v : Option String) : Bool :=
  match v with
  | some s => s ≠ ""
  | none => false

/-! ## Tag extraction

Embedding of `/\[([^\]]+)\]/g` over one line: produces the list of
`(textBefore, tagContent)` pairs in order plus the trailing text after the
last tag. -/

def scanTagsAuxF : Nat → List Char → List Char →
    List (List Char × List Char) × List Char
  | 0, seg, _ => ([], seg.reverse)
  | _, seg, [] => ([], seg.reverse)
  | fuel + 1, seg, c :: rest =>
    if c = '[' then
      match splitAtChar ']' rest with
      | some (content, after) =>
        if content.isEmpty then
          -- `[]` does not match `[^\]]+`; the bracket is literal text.
          scanTagsAuxF fuel (c :: seg) rest
        else
          let pr := scanTagsAuxF fuel [] after
          ((seg.reverse, content) :: pr.1, pr.2)
      | none => scanTagsAuxF fuel (c :: seg) rest
    else scanTagsAuxF fuel (c :: seg) rest

def scanTags (cs : List Char) : List (List Char × List Char) × List Char :=
  scanTagsAuxF (cs.length + 1) [] cs

/-- Embedding of `textAfter.replace(/\[.*?\]/g, '')`: drop every lazily
matched bracket pair. -/
def removeBracketPairsF : Nat → List Char → List Char
  | 0, cs => cs
  | _, [] => []
  | fuel + 1, c :: rest =>
    if c = '[' then
      match splitAtChar ']' rest with
      | some (_, after) => removeBracketPairsF fuel after
      | none => c :: removeBracketPairsF fuel rest
    else c :: removeBracketPairsF fuel rest

def removeBracketPairs (cs : List Char) : List Char :=
  removeBracketPairsF (cs.length + 1) cs

/-! ## Pacing-tag counting

Embedding of `trimmedLine.match(/\[p(?:\s[^\]]*)?]/gi)` (and the `l` / `cm`
variants): count the non-overlapping matches left to right. -/

def countTagF (tag : List Char) : Nat → List Char → Nat
  | 0, _ => 0
  | _, [] => 0
  | fuel + 1, c :: rest =>
    if c = '[' && ciStarts tag rest then
      match rest.drop tag.length with
      | ']' :: r => 1 + countTagF tag fuel r
      | d :: r =>
        if isWS d then
          match splitAtChar ']' r with
          | some (_, after) => 1 + countTagF tag fuel after
          | none => countTagF tag fuel rest
        else countTagF tag fuel rest
      | [] => countTagF tag fuel rest
    else countTagF tag fuel rest

def countTag (tag : List Char) (cs : List Char) : Nat :=
  countTagF tag (cs.length + 1) cs

/-! ## External-jump detection

Embedding of `/\[jump[^\]]*storage\s*=\s*["']?([^"'\]\s]+)/i` and of the
`@jump` variant `/storage\s*=\s*["']?([^"'\s]+)/i`. -/

/-- Characters allowed in the bracket-form capture `[^"'\]\s]+`. -/
def isCapChar (c : Char) : Bool :=
  !(c = '"' || c = '\'' || c = ']' || isWS c)

/-- Characters allowed in the at-form capture `[^"'\s]+`. -/
def isCapCharAt (c : Char) : Bool :=
  !(c = '"' || c = '\'' || isWS c)

/-- Try to match `\s*=\s*["']?(cap+)` at the current position, where `cap`
is the given capture class. -/
def storageTailMatch (cap : Char → Bool) (cs : List Char) : Option String :=
  match cs.dropWhile isWS with
  | '=' :: b =>
    let c := b.dropWhile isWS
    let d := match c with
      | q :: r => if q = '"' || q = '\'' then r else c
      | [] => c
    let captured := d.takeWhile cap
    if captured.isEmpty then none else some (lstr captured)
  | _ => none

/-- All captures of `storage\s*=\s*["']?([^"'\]\s]+)` (case-insensitive on
`storage`) whose start lies before the first `]` of the span. -/
def storageCaptures : List Char → List String
  | [] => []
  | c :: rest =>
    if c = ']' then []
    else
      let here :=
        if ciStarts ['s','t','o','r','a','g','e'] (c :: rest) then
          match storageTailMatch isCapChar ((c :: rest).drop 7) with
          | some cap => [cap]
          | none => []
        else []
      here ++ storageCaptures rest

/-- Leftmost `[jump` occurrence admitting a storage capture; the greedy
`[^\]]*` selects the last viable capture of that occurrence. -/
def jumpCapture : List Char → Option String
  | [] => none
  | c :: rest =>
    if ciStarts ['[','j','u','m','p'] (c :: rest) then
      match (storageCaptures ((c :: rest).drop 5)).getLast? with
      | some cap => some cap
      | none => jumpCapture rest
    else jumpCapture rest

/-- Leftmost capture of `/storage\s*=\s*["']?([^"'\s]+)/i` over a whole line
(used for the `@jump` form). -/
def atStorageCapture : List Char → Option String
  | [] => none
  | c :: rest =>
    if ciStarts ['s','t','o','r','a','g','e'] (c :: rest) then
      match storageTailMatch isCapCharAt ((c :: rest).drop 7) with
      | some cap => some cap
      | none => atStorageCapture rest
    else atStorageCapture rest

/-! ## Data model -/

/-- The `type` discriminator of a timeline event object. -/
inductive EType
  | text | bg | image | chara | video | bgm | se
deriving DecidableEq, Repr

/-- One timeline event.  The JavaScript events are plain objects with a
per-type field set; absent fields are `none`. -/
structure Event where
  type : EType
  speaker : Option String := none
  text : Option String := none
  storage : Option String := none
  layer : Option String := none
  name : Option String := none
  face : Option String := none
  command : Option String := none
  loop : Option Bool := none
  buf : Option String := none
  x : Option String := none
  y : Option String := none
  startTime : ℚ
  endTime : Option ℚ
  filename : String
  line : Option Nat := none
deriving DecidableEq, Repr

/-- The mutable state of a `TimelineProcessor` instance.  The JavaScript
`active*` object references are indices into `events`; the `tracks` object is
derived (each per-channel track is exactly the subsequence of `events` of
that channel, pushed in the same order), so it is not duplicated here. -/
structure State where
  events : List Event
  currentTime : ℚ
  totalTime : ℚ
  activeBgm : Option Nat
  activeImages : List (String × Nat)
  activeCharas : List (String × Nat)
  activeBg : Option Nat
  activeVideo : Option Nat
deriving DecidableEq, Repr

/-- The constructor state of `TimelineProcessor`. -/
def initState : State :=
  { events := [], currentTime := 0, totalTime := 0, activeBgm := none,
    activeImages := [], activeCharas := [], activeBg := none, activeVideo := none }

/-- `clear()`: reset every field. -/
def clear (_s : State) : State :=
  { events := [], currentTime := 0, totalTime := 0, activeBgm := none,
    activeImages := [], activeCharas := [], activeBg := none, activeVideo := none }

/-- Set `events[i].endTime = t` (mutation of the referenced object). -/
def closeIdx (evs : List Event) (i : Nat) (t : ℚ) : List Event :=
  match evs.get? i with
  | some e => evs.set i { e with endTime := some t }
  | none => evs

/-- `Map.prototype.get` on an insertion-ordered association list. -/
def lookupA (m : List (String × Nat)) (k : String) : Option Nat :=
  (m.find? (fun p => p.1 = k)).map (fun p => p.2)

/-- `Map.prototype.set`: replace the entry in place, else append. -/
def insertA : List (String × Nat) → String → Nat → List (String × Nat)
  | [], k, v => [(k, v)]
  | q :: rest, k, v => if q.1 = k then (k, v) :: rest else q :: insertA rest k v

/-- `Map.prototype.delete`. -/
def eraseA : List (String × Nat) → String → List (String × Nat)
  | [], _ => []
  | q :: rest, k => if q.1 = k then eraseA rest k else q :: eraseA rest k

/-- Decoded parameter map. -/
abbrev Params := List (String × Option String)

/-! ## Command handlers (`processBg` … `processSe`, `addTextEvent`) -/

/-- `processBg`: close the open background event, open a new one. -/
def processBg (s : State) (params : Params) (filename : String) (lineNum : Nat) : State :=
  let evs := match s.activeBg with
    | some i => closeIdx s.events i s.currentTime
    | none => s.events
  let event : Event :=
    { type := .bg, storage := getParam params "storage",
      startTime := s.currentTime, endTime := none,
      filename := filename, line := some lineNum }
  { s with events := evs ++ [event], activeBg := some evs.length }

/-- `processImage`: keyed by `layer` (default `"0"`). -/
def processImage (s : State) (params : Params) (filename : String) (lineNum : Nat) : State :=
  let layer := jsOrStr (getParam params "layer") "0"
  let evs := match lookupA s.activeImages layer with
    | some i => closeIdx s.events i s.currentTime
    | none => s.events
  let event : Event :=
    { type := .image, layer := some layer, storage := getParam params "storage",
      startTime := s.currentTime, endTime := none,
      filename := filename, line := some lineNum,
      x := getParam params "x", y := getParam params "y" }
  { s with events := evs ++ [event],
           activeImages := insertA s.activeImages layer evs.length }

/-- `processFreeImage`: close a layer's open image without opening a new one. -/
def processFreeImage (s : State) (params : Params) : State :=
  let layer := match getParam params "layer" with
    | some v => if v = "" then getParam params "name" else some v
    | none => getParam params "name"
  match layer with
  | some l =>
    if l ≠ "" then
      match lookupA s.activeImages l with
      | some i =>
        { s with events := closeIdx s.events i s.currentTime,
                 activeImages := eraseA s.activeImages l }
      | none => s
    else s
  | none => s

/-- `processCharaShow`: keyed by `name`; a falsy `name` aborts without
creating an event. -/
def processCharaShow (s : State) (params : Params) (filename : String) (lineNum : Nat) :
    State :=
  match getParam params "name" with
  | none => s
  | some nm =>
    if nm = "" then s
    else
      let evs := match lookupA s.activeCharas nm with
        | some i => closeIdx s.events i s.currentTime
        | none => s.events
      let event : Event :=
        { type := .chara, name := some nm, face := getParam params "face",
          storage := getParam params "storage",
          startTime := s.currentTime, endTime := none,
          filename := filename, line := some lineNum }
      { s with events := evs ++ [event],
               activeCharas := insertA s.activeCharas nm evs.length }

/-- `processCharaHide`. -/
def processCharaHide (s : State) (params : Params) : State :=
  match getParam params "name" with
  | none => s
  | some nm =>
    if nm = "" then s
    else
      match lookupA s.activeCharas nm with
      | some i =>
        { s with events := closeIdx s.events i s.currentTime,
                 activeCharas := eraseA s.activeCharas nm }
      | none => s

/-- `processCharaHideAll`: close every open character event, clear the map. -/
def processCharaHideAll (s : State) : State :=
  { s with
    events := s.activeCharas.foldl (fun acc p => closeIdx acc p.2 s.currentTime) s.events,
    activeCharas := [] }

/-- `processVideo`: `movie` / `bgmovie` are blocking (advance the clock one
unit and self-close); `video` stays open until released. -/
def processVideo (s : State) (command : String) (params : Params)
    (filename : String) (lineNum : Nat) : State :=
  let s1 := match s.activeVideo with
    | some i => { s with events := closeIdx s.events i s.currentTime, activeVideo := none }
    | none => s
  let event : Event :=
    { type := .video, command := some command, storage := getParam params "storage",
      startTime := s1.currentTime, endTime := none,
      filename := filename, line := some lineNum }
  let idx := s1.events.length
  let s2 := { s1 with events := s1.events ++ [event] }
  if command = "movie" ∨ command = "bgmovie" then
    let s3 := { s2 with currentTime := s2.currentTime + 1 }
    { s3 with events := closeIdx s3.events idx s3.currentTime }
  else
    { s2 with activeVideo := some idx }

/-- `processWaitVideo`. -/
def processWaitVideo (s : State) : State :=
  match s.activeVideo with
  | some i => { s with events := closeIdx s.events i s.currentTime, activeVideo := none }
  | none => s

/-- `processFreeVideo`. -/
def processFreeVideo (s : State) : State :=
  match s.activeVideo with
  | some i => { s with events := closeIdx s.events i s.currentTime, activeVideo := none }
  | none => s

/-- `processBgmStart` (`playbgm` / `fadeinbgm`). -/
def processBgmStart (s : State) (command : String) (params : Params)
    (filename : String) (lineNum : Nat) : State :=
  let evs := match s.activeBgm with
    | some i => closeIdx s.events i s.currentTime
    | none => s.events
  let event : Event :=
    { type := .bgm, command := some command, storage := getParam params "storage",
      startTime := s.currentTime, endTime := none,
      filename := filename, line := some lineNum,
      loop := some (decide ¬ getParam params "loop" = some "false") }
  { s with events := evs ++ [event], activeBgm := some evs.length }

/-- `processBgmStop` (`stopbgm` / `fadeoutbgm`). -/
def processBgmStop (s : State) : State :=
  match s.activeBgm with
  | some i => { s with events := closeIdx s.events i s.currentTime, activeBgm := none }
  | none => s

/-- `processSe` (`playse` / `fadeinse`): a fixed-length closed event. -/
def processSe (s : State) (command : String) (params : Params)
    (filename : String) (lineNum : Nat) : State :=
  let event : Event :=
    { type := .se, command := some command, storage := getParam params "storage",
      startTime := s.currentTime, endTime := some (s.currentTime + 1/2),
      filename := filename, line := some lineNum,
      buf := some (jsOrStr (getParam params "buf") "0") }
  { s with events := s.events ++ [event] }

/-- `addTextEvent`: push a closed text event unless the text is blank. -/
def addTextEvent (s : State) (speaker : Option String) (text : String)
    (startTime endTime : ℚ) (filename : String) : State :=
  if jsTrim text.data = [] then s
  else
    let event : Event :=
      { type := .text, speaker := speaker, text := some (lstr (jsTrim text.data)),
        startTime := startTime, endTime := some endTime, filename := filename }
    { s with events := s.events ++ [event] }

/-- `processCommand`: the string switch. -/
def processCommand (s : State) (command : String) (params : Params)
    (filename : String) (lineNum : Nat) : State :=
  match command with
  | "bg" => processBg s params filename lineNum
  | "image" => processImage s params filename lineNum
  | "freeimage" => processFreeImage s params
  | "chara_show" => processCharaShow s params filename lineNum
  | "chara_hide" => processCharaHide s params
  | "chara_hide_all" => processCharaHideAll s
  | "video" => processVideo s command params filename lineNum
  | "movie" => processVideo s command params filename lineNum
  | "bgmovie" => processVideo s command params filename lineNum
  | "wait_video" => processWaitVideo s
  | "free_video" => processFreeVideo s
  | "playbgm" => processBgmStart s command params filename lineNum
  | "fadeinbgm" => processBgmStart s command params filename lineNum
  | "stopbgm" => processBgmStop s
  | "fadeoutbgm" => processBgmStop s
  | "playse" => processSe s command params filename lineNum
  | "fadeinse" => processSe s command params filename lineNum
  | _ => s

/-- `processAtCommand`: parse `@name k=v …` (the argument is the trimmed
line) and dispatch. -/
def processAtCommand (s : State) (line : List Char) (filename : String) (lineNum : Nat) :
    State :=
  let command := toLowerL ((jsTrim (line.drop 1)).takeWhile (fun c => !isWS c))
  let params := scanParams (line.drop (1 + command.length))
  processCommand s (lstr command) params filename lineNum

/-- `processLineWithTags`: run every bracket tag of the line through
`processCommand`, collecting the literal text pieces the callback receives,
in order. -/
def processLineWithTags (s : State) (line : List Char) (filename : String)
    (lineNum : Nat) : State × List String :=
  let pr := scanTags line
  let s1 := pr.1.foldl (fun acc q =>
      let tagName := toLowerL ((jsTrim q.2).takeWhile (fun c => !isWS c))
      processCommand acc (lstr tagName) (scanParams q.2) filename lineNum) s
  let texts1 := (pr.1.filter (fun q => jsTrim q.1 ≠ [])).map (fun q => lstr q.1)
  let cleanTail := jsTrim (removeBracketPairs pr.2)
  (s1, texts1 ++ (if cleanTail ≠ [] then [lstr cleanTail] else []))

/-! ## Per-file scanning state and the line loop of `processFile` -/

/-- The local variables of the `processFile` loop. -/
structure Ctx where
  currentSpeaker : Option String
  textBuffer : List String
  textStartTime : ℚ
  hasExternalJump : Bool
  passedJumpAndStop : Bool
  hasVisualContent : Bool
  firstCmSkipped : Bool
deriving DecidableEq, Repr

/-- Flush the text buffer (`addTextEvent(currentSpeaker, join, start, end)`). -/
def flushBuf (s : State) (ctx : Ctx) (endTime : ℚ) (filename : String) : State :=
  addTextEvent s ctx.currentSpeaker (String.join ctx.textBuffer)
    ctx.textStartTime endTime filename

/-- Page-wait handling (`@p` with count 1, `[p]` tags with their match
count): flush the buffer to an event ending one unit later, advance the
clock by the occurrence count, restart the buffer clock. -/
def pBlock (s : State) (ctx : Ctx) (filename : String) (cnt : Nat) : State × Ctx :=
  let flushed := decide ¬ ctx.textBuffer = []
  let s1 := if flushed then flushBuf s ctx (s.currentTime + 1) filename else s
  let ctx1 := if flushed then { ctx with textBuffer := [] } else ctx
  let s2 := { s1 with currentTime := s1.currentTime + (cnt : ℚ) }
  (s2, { ctx1 with textStartTime := s2.currentTime, hasVisualContent := true })

/-- Line-wait handling (`@l` with count 1, `[l]` tags with their count). -/
def lBlock (s : State) (ctx : Ctx) (cnt : Nat) : State × Ctx :=
  ({ s with currentTime := s.currentTime + (cnt : ℚ) },
   { ctx with hasVisualContent := true })

/-- Message-clear handling (`@cm` with count 1, `[cm]` tags with their
count): flush, then advance unless this is the one-shot skipped first
clear before any visual content. -/
def cmBlock (s : State) (ctx : Ctx) (filename : String) (cnt : Nat) : State × Ctx :=
  let flushed := decide ¬ ctx.textBuffer = []
  let s1 := if flushed then flushBuf s ctx (s.currentTime + 1) filename else s
  let ctx1 := if flushed
    then { ctx with textBuffer := [], hasVisualContent := true } else ctx
  let adv := ctx1.hasVisualContent || ctx1.firstCmSkipped
  let s2 := if adv then { s1 with currentTime := s1.currentTime + (cnt : ℚ) } else s1
  let ctx2 := if adv then ctx1 else { ctx1 with firstCmSkipped := true }
  (s2, { ctx2 with textStartTime := s2.currentTime })

/-- The two jump-detection tests of the per-line loop: the bracket regex
and, on an `@jump` line mentioning `storage=`, the attribute regex. -/
def hasJumpFlag (tl : List Char) : Bool :=
  (match jumpCapture tl with
   | some cap => cap.endsWith ".ks"
   | none => false) ||
  (if startsWithL ['@','j','u','m','p'] tl &&
      containsSub ['s','t','o','r','a','g','e','='] tl then
    match atStorageCapture tl with
    | some cap => cap.endsWith ".ks"
    | none => false
  else false)

/-- One iteration of the `processFile` line loop.  The `Bool` result is the
`break` taken on a label line after an external jump plus stop. -/
def lineStep (s : State) (ctx : Ctx) (filename : String) (lineNum : Nat)
    (line : List Char) : State × Ctx × Bool :=
  let tl := jsTrim line
  if startsWithL [';'] tl then (s, ctx, false)
  else
    let ctx1 := if hasJumpFlag tl then { ctx with hasExternalJump := true } else ctx
    if tl = ['[','s',']'] || startsWithL ['[','s',' '] tl then
      (s, (if ctx1.hasExternalJump then { ctx1 with passedJumpAndStop := true } else ctx1),
       false)
    else if startsWithL ['*'] tl then
      if ctx1.passedJumpAndStop then (s, ctx1, true) else (s, ctx1, false)
    else if startsWithL ['@'] tl then
      let atCommand := toLowerL ((jsTrim (tl.drop 1)).takeWhile (fun c => !isWS c))
      if atCommand = ['s'] then
        (s, (if ctx1.hasExternalJump then { ctx1 with passedJumpAndStop := true } else ctx1),
         false)
      else
        let s1 := processAtCommand s tl filename lineNum
        if atCommand = ['p'] then
          let r := pBlock s1 ctx1 filename 1
          (r.1, r.2, false)
        else if atCommand = ['l'] then
          let r := lBlock s1 ctx1 1
          (r.1, r.2, false)
        else if atCommand = ['c','m'] then
          let r := cmBlock s1 ctx1 filename 1
          (r.1, r.2, false)
        else (s1, ctx1, false)
    else if startsWithL ['#'] tl then
      let flushed := decide ¬ ctx1.textBuffer = []
      let s1 := if flushed then flushBuf s ctx1 s.currentTime filename else s
      let ctx2 := if flushed then { ctx1 with textBuffer := [] } else ctx1
      let nm := jsTrim ((tl.drop 1).takeWhile (fun c => !(c = ':')))
      (s1, { ctx2 with currentSpeaker := (if nm = [] then none else some (lstr nm)),
                       textStartTime := s1.currentTime }, false)
    else
      let r := processLineWithTags s tl filename lineNum
      let ctxA := { ctx1 with textBuffer := ctx1.textBuffer ++ r.2 }
      let pCnt := countTag ['p'] tl
      let pRes := if pCnt > 0 then pBlock r.1 ctxA filename pCnt else (r.1, ctxA)
      let lCnt := countTag ['l'] tl
      let lRes := if lCnt > 0 then lBlock pRes.1 pRes.2 lCnt else pRes
      let cmCnt := countTag ['c','m'] tl
      let cmRes := if cmCnt > 0 then cmBlock lRes.1 lRes.2 filename cmCnt else lRes
      (cmRes.1, cmRes.2, false)

/-- The `for` loop of `processFile`, with the `break` on a post-jump label. -/
def processLines (filename : String) : State → Ctx → Nat → List (List Char) →
    State × Ctx
  | s, ctx, _, [] => (s, ctx)
  | s, ctx, n, l :: rest =>
    let r := lineStep s ctx filename n l
    if r.2.2 then (r.1, r.2.1)
    else processLines filename r.1 r.2.1 (n + 1) rest

/-- `processFile(content, filename)`. -/
def processFile (s : State) (content : String) (filename : String) : State :=
  let s1 := match s.activeVideo with
    | some i => { s with events := closeIdx s.events i s.currentTime, activeVideo := none }
    | none => s
  let ctx0 : Ctx :=
    { currentSpeaker := none, textBuffer := [], textStartTime := s1.currentTime,
      hasExternalJump := false, passedJumpAndStop := false,
      hasVisualContent := false, firstCmSkipped := false }
  let r := processLines filename s1 ctx0 1 (splitLines content.data)
  if r.2.textBuffer ≠ [] then flushBuf r.1 r.2 r.1.currentTime filename else r.1

/-- Process a list of `(filename, content)` files in the caller's order. -/
def processFiles (s : State) (files : List (String × String)) : State :=
  files.foldl (fun acc f => processFile acc f.2 f.1) s

/-- JavaScript truthiness of an `endTime` value (`!event.endTime`). -/
def jsFalsyTime (t : Option ℚ) : Bool :=
  match t with
  | none => true
  | some v => v = 0

/-- Close the event referenced by an active slot, if any (the
`if (this.activeX) { ... }` blocks of `finalize`). -/
def closeActive (evs : List Event) (ptr : Option Nat) (t : ℚ) : List Event :=
  match ptr with
  | some i => closeIdx evs i t
  | none => evs

/-- One step of the `activeImages`/`activeCharacters` loops of `finalize`:
look the referenced event up and close it when its `endTime` is falsy. -/
def finStep (t : ℚ) (acc : List Event) (p : String × Nat) : List Event :=
  match acc.get? p.2 with
  | some e => if jsFalsyTime e.endTime then closeIdx acc p.2 t else acc
  | none => acc

/-- The final sweep of `finalize`: `null` end times become `totalTime`. -/
def closeNone (t : ℚ) (e : Event) : Event :=
  if e.endTime = none then { e with endTime := some t } else e

/-- `finalize()`: record `totalTime`, close the still-active events, then
close every event whose `endTime` is still `null`. -/
def finalize (s : State) : State :=
  let sA := { s with totalTime := s.currentTime }
  let sB := { sA with events := closeActive sA.events sA.activeBgm sA.totalTime }
  let sC := { sB with events := closeActive sB.events sB.activeBg sB.totalTime }
  let sD := { sC with events := closeActive sC.events sC.activeVideo sC.totalTime }
  let sE := { sD with events := sD.activeImages.foldl (finStep sD.totalTime) sD.events }
  let sF := { sE with events := sE.activeCharas.foldl (finStep sE.totalTime) sE.events }
  { sF with events := sF.events.map (closeNone sF.totalTime) }

/-- A whole build session: fresh processor, process the files in order,
finalize. -/
def buildTimeline (files : List (String × String)) : State :=
  finalize (processFiles initState files)

/-! ## Channels and sub-keys

A `(channel, subKey)` pair in the sense of the specification: the channels
with open/close interval tracking are text, background, image layers (keyed
by layer id), characters (keyed by name), video and bgm.  Sound effects are
born closed with a fixed duration and have no pair key. -/

inductive PairKey
  | tx
  | bgk
  | vid
  | bgmk
  | img (layer : String)
  | chr (nm : String)
deriving DecidableEq, Repr

/-- The pair key of an event (`none` for sound effects). -/
def pairKeyOf (e : Event) : Option PairKey :=
  match e.type with
  | .text => some .tx
  | .bg => some .bgk
  | .video => some .vid
  | .bgm => some .bgmk
  | .se => none
  | .image => e.layer.map PairKey.img
  | .chara => e.name.map PairKey.chr

/-- Membership of an event in the `(channel, subKey)` track `k`. -/
def pk (k : PairKey) (e : Event) : Bool := pairKeyOf e = some k

/-- The track of a pair: the subsequence of `events` on that channel/sub-key,
in creation order (this is what the JavaScript `tracks` object stores). -/
def trackOf (s : State) (k : PairKey) : List Event := s.events.filter (pk k)

/-- The active-slot reference of each pair inside the state. -/
def pointerOf (s : State) : PairKey → Option Nat
  | .tx => none
  | .bgk => s.activeBg
  | .vid => s.activeVideo
  | .bgmk => s.activeBgm
  | .img l => lookupA s.activeImages l
  | .chr n => lookupA s.activeCharas n

/-- Chaining relation between consecutive track events: the earlier one is
closed, has non-negative duration, and ends no later than the next starts. -/
def Rle (a b : Event) : Prop :=
  ∃ t, a.endTime = some t ∧ a.startTime ≤ t ∧ t ≤ b.startTime

/-- Well-formedness of an active-slot reference for the predicate `p`:
either no reference and every track event closed, or a reference to an open
event that is the last track event. -/
def PtrInv (evs : List Event) (p : Event → Bool) : Option Nat → Prop
  | some i => ∃ e, evs.get? i = some e ∧ p e = true ∧ e.endTime = none ∧
      (evs.drop (i + 1)).filter p = []
  | none => ∀ e ∈ evs.filter p, e.endTime ≠ none

/-- The clock-relative well-formedness of the event list (independent of the
active references). -/
structure FWF (evs : List Event) (c : ℚ) : Prop where
  start_le : ∀ e ∈ evs, e.startTime ≤ c
  start_le_end : ∀ e ∈ evs, ∀ t, e.endTime = some t → e.startTime ≤ t
  end_le : ∀ e ∈ evs, e.type ≠ .se → ∀ t, e.endTime = some t → t ≤ c
  se_end : ∀ e ∈ evs, e.type = .se → e.endTime = some (e.startTime + 1/2)
  chain : ∀ k, List.Chain' Rle (evs.filter (pk k))

/-- Full invariant of a processor state during a build. -/
structure WF (s : State) : Prop where
  core : FWF s.events s.currentTime
  ptr : ∀ k, PtrInv s.events (pk k) (pointerOf s k)
  imgKeys : (s.activeImages.map Prod.fst).Nodup
  chrKeys : (s.activeCharas.map Prod.fst).Nodup

/-- Invariant tying the per-file text-buffer bookkeeping to the state. -/
structure CtxInv (s : State) (ctx : Ctx) : Prop where
  tst_le : ctx.textStartTime ≤ s.currentTime
  last_le : ∀ e, (s.events.filter (pk .tx)).getLast? = some e →
      ∀ t, e.endTime = some t → t ≤ ctx.textStartTime

/-! ## List toolkit -/

/-- Closing an event changes neither its channel nor its sub-key. -/
theorem pairKeyOf_endUpd (e : Event) (t : Option ℚ) :
    pairKeyOf { e with endTime := t } = pairKeyOf e := rfl

theorem pk_endUpd (k : PairKey) (e : Event) (t : Option ℚ) :
    pk k { e with endTime := t } = pk k e := rfl

theorem closeIdx_of_get? {evs : List Event} {i : Nat} {e : Event} (h : evs.get? i = some e)
    (t : ℚ) : closeIdx evs i t = evs.set i { e with endTime := some t } := by
  unfold closeIdx
  rw [h]

theorem closeIdx_length (evs : List Event) (i : Nat) (t : ℚ) :
    (closeIdx evs i t).length = evs.length := by
  unfold closeIdx
  cases h : evs.get? i <;> simp

theorem get?_lt_length {evs : List Event} {i : Nat} {e : Event}
    (h : evs.get? i = some e) : i < evs.length := by
  rw [List.get?_eq_getElem?] at h
  rcases List.getElem?_eq_some.mp h with ⟨hlt, _⟩
  exact hlt

theorem closeIdx_get?_ne {evs : List Event} {i j : Nat} (hne : i ≠ j) (t : ℚ) :
    (closeIdx evs i t).get? j = evs.get? j := by
  unfold closeIdx
  cases h : evs.get? i
  · rfl
  · simp only [List.get?_eq_getElem?]
    exact List.getElem?_set_ne hne

theorem closeIdx_get?_eq {evs : List Event} {i : Nat} {e : Event}
    (h : evs.get? i = some e) (t : ℚ) :
    (closeIdx evs i t).get? i = some { e with endTime := some t } := by
  rw [closeIdx_of_get? h]
  simp only [List.get?_eq_getElem?]
  exact List.getElem?_set_self (get?_lt_length h)

theorem filter_set_of_false {p : Event → Bool} :
    ∀ {l : List Event} {i : Nat} {e e' : Event}, l.get? i = some e →
      p e = false → p e' = false → (l.set i e').filter p = l.filter p := by
  intro l
  induction l with
  | nil => intro i e e' h; simp [List.get?] at h
  | cons a rest ih =>
    intro i e e' h hpe hpe'
    cases i with
    | zero =>
      rw [List.get?_cons_zero] at h
      injection h with h
      subst h
      simp [List.filter_cons, hpe, hpe']
    | succ n =>
      rw [List.get?_cons_succ] at h
      simp only [List.set_cons_succ]
      cases hpa : p a <;> simp [List.filter_cons, hpa, ih h hpe hpe']

theorem filter_drop_set_of_false {p : Event → Bool} {l : List Event} {i : Nat}
    {e e' : Event} (h : l.get? i = some e) (hpe : p e = false) (hpe' : p e' = false)
    (j : Nat) : ((l.set i e').drop j).filter p = (l.drop j).filter p := by
  rw [List.drop_set]
  by_cases hij : i < j
  · simp [hij]
  · simp only [if_neg hij]
    have hget : (l.drop j).get? (i - j) = some e := by
      rw [List.get?_eq_getElem?, List.getElem?_drop]
      rw [List.get?_eq_getElem?] at h
      rw [Nat.add_sub_cancel' (Nat.le_of_not_lt hij)]
      exact h
    exact filter_set_of_false hget hpe hpe'

theorem filter_closeIdx_of_false {p : Event → Bool} {l : List Event} {i : Nat}
    {e : Event} (h : l.get? i = some e) (hpe : p e = false)
    (hp_upd : ∀ t : ℚ, p { e with endTime := some t } = false) (t : ℚ) :
    (closeIdx l i t).filter p = l.filter p := by
  rw [closeIdx_of_get? h]
  exact filter_set_of_false h hpe (hp_upd t)

theorem mem_closeIdx {l : List Event} {i : Nat} {t : ℚ} {x : Event}
    (hx : x ∈ closeIdx l i t) :
    x ∈ l ∨ ∃ e, l.get? i = some e ∧ x = { e with endTime := some t } := by
  unfold closeIdx at hx
  cases h : l.get? i with
  | none => rw [h] at hx; exact Or.inl hx
  | some e =>
    rw [h] at hx
    rcases List.mem_or_eq_of_mem_set hx with hmem | heq
    · exact Or.inl hmem
    · exact Or.inr ⟨e, rfl, heq⟩

theorem decomp_of_get? {l : List Event} {i : Nat} {e : Event} (h : l.get? i = some e) :
    l = l.take i ++ e :: l.drop (i + 1) := by
  have hlt := get?_lt_length h
  have hdrop : l.drop i = e :: l.drop (i + 1) := by
    rw [List.drop_eq_getElem_cons hlt]
    rw [List.get?_eq_getElem?] at h
    have : l[i] = e := by
      have := List.getElem?_eq_getElem hlt
      rw [this] at h
      exact Option.some_injective _ h
    rw [this]
  conv_lhs => rw [← List.take_append_drop i l]
  rw [hdrop]

theorem set_decomp_of_get? {l : List Event} {i : Nat} {e : Event}
    (h : l.get? i = some e) (x : Event) :
    l.set i x = l.take i ++ x :: l.drop (i + 1) := by
  have hlt := get?_lt_length h
  have hlen : (l.take i).length = i := by
    rw [List.length_take]
    omega
  conv_lhs => rw [decomp_of_get? h]
  rw [List.set_append, hlen]
  rw [if_neg (by omega)]
  simp

/-- The track decomposition at a well-formed active reference: the pointed
event is the last element of its track. -/
theorem track_decomp {l : List Event} {p : Event → Bool} {i : Nat} {e : Event}
    (h : l.get? i = some e) (hpe : p e = true)
    (hlast : (l.drop (i + 1)).filter p = []) :
    l.filter p = (l.take i).filter p ++ [e] := by
  conv_lhs => rw [decomp_of_get? h]
  rw [List.filter_append, List.filter_cons, if_pos hpe, hlast]

/-- Closing the pointed event rewrites the track to its closed form. -/
theorem track_closeIdx_decomp {l : List Event} {p : Event → Bool} {i : Nat} {e : Event}
    (h : l.get? i = some e) (hpe : p e = true)
    (hp_upd : ∀ t : ℚ, p { e with endTime := some t } = true)
    (hlast : (l.drop (i + 1)).filter p = []) (t : ℚ) :
    (closeIdx l i t).filter p = (l.take i).filter p ++ [{ e with endTime := some t }] := by
  rw [closeIdx_of_get? h, set_decomp_of_get? h]
  rw [List.filter_append, List.filter_cons, if_pos (hp_upd t), hlast]

theorem chain'_append_singleton {R : Event → Event → Prop} {l : List Event} {b : Event}
    (hc : List.Chain' R l) (hr : ∀ a, l.getLast? = some a → R a b) :
    List.Chain' R (l ++ [b]) := by
  rw [List.chain'_append]
  refine ⟨hc, List.chain'_singleton b, ?_⟩
  intro x hx y hy
  simp at hy
  subst hy
  exact hr x hx

/-- In a chained track, every element before the last is closed with
non-negative duration. -/
theorem chain'_closed {l : List Event} {b : Event}
    (hc : List.Chain' Rle (l ++ [b])) :
    ∀ a ∈ l, ∃ t, a.endTime = some t ∧ a.startTime ≤ t := by
  induction l with
  | nil => intro a ha; simp at ha
  | cons x rest ih =>
    intro a ha
    have hx : List.Chain' Rle (x :: (rest ++ [b])) := hc
    rcases List.chain'_cons'.mp hx with ⟨hhead, htail⟩
    rcases List.mem_cons.mp ha with rfl | hmem
    · have hne : (rest ++ [b]).head?.isSome := by
        cases rest <;> simp
      cases hh : (rest ++ [b]).head? with
      | none => rw [hh] at hne; simp at hne
      | some y =>
        rcases hhead y hh with ⟨t, h1, h2, _⟩
        exact ⟨t, h1, h2⟩
    · exact ih htail a hmem

/-- Changing only the `endTime` of the final track element preserves the
chain into it. -/
theorem chain'_close_last {l : List Event} {e : Event} (t : ℚ)
    (hc : List.Chain' Rle (l ++ [e])) :
    List.Chain' Rle (l ++ [{ e with endTime := some t }]) := by
  rcases List.chain'_append.mp hc with ⟨h1, _, h3⟩
  apply chain'_append_singleton h1
  intro a ha
  rcases h3 a ha e (by simp) with ⟨u, hu1, hu2, hu3⟩
  exact ⟨u, hu1, hu2, hu3⟩

theorem lookupA_cons_of_pos {q : String × Nat} {m : List (String × Nat)} {k : String}
    (hq : q.1 = k) : lookupA (q :: m) k = some q.2 := by
  unfold lookupA
  rw [List.find?_cons_of_pos m (by simpa using hq)]
  rfl

theorem lookupA_cons_of_neg {q : String × Nat} {m : List (String × Nat)} {k : String}
    (hq : ¬ q.1 = k) : lookupA (q :: m) k = lookupA m k := by
  unfold lookupA
  rw [List.find?_cons_of_neg m (by simpa using hq)]

theorem lookupA_insertA_self : ∀ (m : List (String × Nat)) (k : String) (v : Nat),
    lookupA (insertA m k v) k = some v := by
  intro m k v
  induction m with
  | nil => simp only [insertA]; rw [lookupA_cons_of_pos rfl]
  | cons q rest ih =>
    by_cases hq : q.1 = k
    · simp only [insertA, if_pos hq]
      rw [lookupA_cons_of_pos rfl]
    · simp only [insertA, if_neg hq]
      rw [lookupA_cons_of_neg hq]
      exact ih

theorem lookupA_insertA_ne : ∀ (m : List (String × Nat)) {k k' : String} (v : Nat),
    ¬ k' = k → lookupA (insertA m k v) k' = lookupA m k' := by
  intro m k k' v hne
  have hkne : ¬ (k, v).1 = k' := fun h => hne h.symm
  induction m with
  | nil =>
    simp only [insertA]
    rw [lookupA_cons_of_neg hkne]
  | cons q rest ih =>
    by_cases hq : q.1 = k
    · simp only [insertA, if_pos hq]
      rw [lookupA_cons_of_neg hkne]
      by_cases hq' : q.1 = k'
      · exact absurd (hq' ▸ hq.symm ▸ rfl : k' = k) (by rw [← hq']; exact fun h => hne (hq' ▸ h))
      · rw [lookupA_cons_of_neg hq']
    · simp only [insertA, if_neg hq]
      by_cases hq' : q.1 = k'
      · rw [lookupA_cons_of_pos hq', lookupA_cons_of_pos hq']
      · rw [lookupA_cons_of_neg hq', lookupA_cons_of_neg hq']
        exact ih

theorem lookupA_eraseA_self : ∀ (m : List (String × Nat)) (k : String),
    lookupA (eraseA m k) k = none := by
  intro m k
  induction m with
  | nil => rfl
  | cons q rest ih =>
    by_cases hq : q.1 = k
    · simpa [eraseA, if_pos hq] using ih
    · simp only [eraseA, if_neg hq]
      rw [lookupA_cons_of_neg hq]
      exact ih

theorem lookupA_eraseA_ne : ∀ (m : List (String × Nat)) {k k' : String},
    ¬ k' = k → lookupA (eraseA m k) k' = lookupA m k' := by
  intro m k k' hne
  induction m with
  | nil => rfl
  | cons q rest ih =>
    by_cases hq : q.1 = k
    · simp only [eraseA, if_pos hq]
      rw [ih]
      have hq' : ¬ q.1 = k' := by rw [hq]; exact fun h => hne h.symm
      rw [lookupA_cons_of_neg hq']
    · simp only [eraseA, if_neg hq]
      by_cases hq' : q.1 = k'
      · rw [lookupA_cons_of_pos hq', lookupA_cons_of_pos hq']
      · rw [lookupA_cons_of_neg hq', lookupA_cons_of_neg hq']
        exact ih

theorem keys_insertA_mem : ∀ {m : List (String × Nat)} {k : String} {v : Nat}
    {x : String}, x ∈ (insertA m k v).map Prod.fst → x = k ∨ x ∈ m.map Prod.fst := by
  intro m k v x hx
  induction m with
  | nil =>
    simp only [insertA, List.map_cons, List.map_nil] at hx
    rcases List.mem_cons.mp hx with rfl | h
    · exact Or.inl rfl
    · simp at h
  | cons q rest ih =>
    by_cases hq : q.1 = k
    · simp only [insertA, if_pos hq, List.map_cons] at hx
      rcases List.mem_cons.mp hx with rfl | h
      · exact Or.inl rfl
      · exact Or.inr (by simp only [List.map_cons]; exact List.mem_cons_of_mem _ h)
    · simp only [insertA, if_neg hq, List.map_cons] at hx
      rcases List.mem_cons.mp hx with rfl | h
      · exact Or.inr (by simp only [List.map_cons]; exact List.mem_cons_self _ _)
      · rcases ih h with h1 | h2
        · exact Or.inl h1
        · exact Or.inr (by simp only [List.map_cons]; exact List.mem_cons_of_mem _ h2)

theorem insertA_keys_nodup : ∀ {m : List (String × Nat)}, (m.map Prod.fst).Nodup →
    ∀ (k : String) (v : Nat), ((insertA m k v).map Prod.fst).Nodup := by
  intro m h k v
  induction m with
  | nil => simp [insertA]
  | cons q rest ih =>
    simp only [List.map_cons, List.nodup_cons] at h
    by_cases hq : q.1 = k
    · simp only [insertA, if_pos hq, List.map_cons, List.nodup_cons]
      exact ⟨by rw [← hq]; exact h.1, h.2⟩
    · simp only [insertA, if_neg hq, List.map_cons, List.nodup_cons]
      refine ⟨?_, ih h.2⟩
      intro hmem
      rcases keys_insertA_mem hmem with h1 | h2
      · exact hq h1
      · exact h.1 h2

theorem eraseA_keys_nodup : ∀ {m : List (String × Nat)}, (m.map Prod.fst).Nodup →
    ∀ (k : String), ((eraseA m k).map Prod.fst).Nodup := by
  intro m h k
  induction m with
  | nil => simp [eraseA]
  | cons q rest ih =>
    simp only [List.map_cons, List.nodup_cons] at h
    by_cases hq : q.1 = k
    · simp only [eraseA, if_pos hq]
      exact ih h.2
    · simp only [eraseA, if_neg hq, List.map_cons, List.nodup_cons]
      refine ⟨?_, ih h.2⟩
      intro hmem
      rcases List.mem_map.mp hmem with ⟨p, hp, hfst⟩
      apply h.1
      rw [← hfst]
      apply List.mem_map_of_mem
      clear ih h hmem hfst
      induction rest with
      | nil => simp [eraseA] at hp
      | cons r rr ihr =>
        by_cases hr : r.1 = k
        · simp only [eraseA, if_pos hr] at hp
          exact List.mem_cons_of_mem r (ihr hp)
        · simp only [eraseA, if_neg hr] at hp
          rcases List.mem_cons.mp hp with rfl | hp'
          · exact List.mem_cons_self p rr
          · exact List.mem_cons_of_mem r (ihr hp')

/-- Entries of `eraseA` come from the original map. -/
theorem mem_eraseA : ∀ {m : List (String × Nat)} {k : String} {p : String × Nat},
    p ∈ eraseA m k → p ∈ m := by
  intro m k p hp
  induction m with
  | nil => simpa [eraseA] using hp
  | cons q rest ih =>
    by_cases hq : q.1 = k
    · simp only [eraseA, if_pos hq] at hp
      exact List.mem_cons_of_mem q (ih hp)
    · simp only [eraseA, if_neg hq] at hp
      rcases List.mem_cons.mp hp with rfl | hp'
      · exact List.mem_cons_self p rest
      · exact List.mem_cons_of_mem q (ih hp')

/-! ## Preservation lemmas for the primitive event-list operations -/

theorem pk_iff {k : PairKey} {e : Event} : pk k e = true ↔ pairKeyOf e = some k := by
  simp [pk]

theorem pk_false_of_other {k k' : PairKey} {e : Event} (hk : pairKeyOf e = some k)
    (hne : k' ≠ k) : pk k' e = false := by
  simp [pk, hk]
  exact fun h => hne h.symm

theorem pk_type_ne_se {k : PairKey} {e : Event} (h : pk k e = true) : e.type ≠ .se := by
  intro hty
  rw [pk_iff] at h
  rw [pairKeyOf, hty] at h
  simp at h

theorem pk_false_of_se {k : PairKey} {e : Event} (h : e.type = .se) : pk k e = false := by
  rw [pk, pairKeyOf, h]
  simp

/-- Appending an event of another pair preserves an active reference. -/
theorem ptrInv_append_other {evs : List Event} {k : PairKey} {e : Event}
    (hpe : pk k e = false) {ptr : Option Nat} (h : PtrInv evs (pk k) ptr) :
    PtrInv (evs ++ [e]) (pk k) ptr := by
  cases ptr with
  | none =>
    intro x hx
    rw [List.filter_append] at hx
    rcases List.mem_append.mp hx with hx1 | hx2
    · exact h x hx1
    · rw [List.filter_cons] at hx2
      rw [hpe] at hx2
      simp at hx2
  | some i =>
    rcases h with ⟨e0, hget, hpk, hend, hdrop⟩
    refine ⟨e0, ?_, hpk, hend, ?_⟩
    · rw [List.get?_eq_getElem?, List.getElem?_append,
        if_pos (get?_lt_length hget)]
      rw [List.get?_eq_getElem?] at hget
      exact hget
    · rw [List.drop_append_of_le_length (get?_lt_length hget), List.filter_append, hdrop]
      rw [List.filter_cons, hpe]
      simp

/-- Appending an event of another pair leaves the pair's track unchanged. -/
theorem filter_append_other {evs : List Event} {k : PairKey} {e : Event}
    (hpe : pk k e = false) :
    (evs ++ [e]).filter (pk k) = evs.filter (pk k) := by
  rw [List.filter_append, List.filter_cons, hpe]
  simp

/-- Closing an event of another pair preserves an active reference. -/
theorem ptrInv_closeIdx_other {evs : List Event} {k : PairKey} {i : Nat} {e0 : Event}
    (hget : evs.get? i = some e0) (hpe : pk k e0 = false) (t : ℚ) {ptr : Option Nat}
    (h : PtrInv evs (pk k) ptr) : PtrInv (closeIdx evs i t) (pk k) ptr := by
  have hpe' : pk k { e0 with endTime := some t } = false := by
    rw [pk_endUpd]; exact hpe
  cases ptr with
  | none =>
    intro x hx
    rw [filter_closeIdx_of_false hget hpe (fun u => by rw [pk_endUpd]; exact hpe)] at hx
    exact h x hx
  | some j =>
    rcases h with ⟨e1, hget1, hpk1, hend1, hdrop1⟩
    have hij : i ≠ j := by
      intro hij
      subst hij
      rw [hget] at hget1
      injection hget1 with h1
      subst h1
      rw [hpe] at hpk1
      exact absurd hpk1 (by simp)
    refine ⟨e1, ?_, hpk1, hend1, ?_⟩
    · rw [closeIdx_get?_ne hij]
      exact hget1
    · rw [closeIdx_of_get? hget]
      rw [filter_drop_set_of_false hget hpe hpe']
      exact hdrop1

/-- Closing an event of another pair leaves the pair's track unchanged. -/
theorem filter_closeIdx_other {evs : List Event} {k : PairKey} {i : Nat} {e0 : Event}
    (hget : evs.get? i = some e0) (hpe : pk k e0 = false) (t : ℚ) :
    (closeIdx evs i t).filter (pk k) = evs.filter (pk k) :=
  filter_closeIdx_of_false hget hpe (fun u => by rw [pk_endUpd]; exact hpe) t

/-! ## State-level preservation lemmas -/

/-- Close-and-release: the operation shape of `stopbgm`, `wait_video`,
`free_video`, `freeimage`, `chara_hide`, applied when the reference exists. -/
theorem wf_closePair {s : State} (hwf : WF s) (k : PairKey) (i : Nat)
    (hp : pointerOf s k = some i) {s' : State}
    (hev : s'.events = closeIdx s.events i s.currentTime)
    (ht : s'.currentTime = s.currentTime)
    (hptrk : pointerOf s' k = none)
    (hptro : ∀ k', k' ≠ k → pointerOf s' k' = pointerOf s k')
    (himg : (s'.activeImages.map Prod.fst).Nodup)
    (hchr : (s'.activeCharas.map Prod.fst).Nodup) : WF s' := by
  rcases hwf.ptr k with h
  rw [hp] at h
  rcases h with ⟨e0, hget, hpk, hend, hdrop⟩
  have hupd : ∀ t : ℚ, pk k { e0 with endTime := some t } = true := by
    intro t; rw [pk_endUpd]; exact hpk
  have hmem0 : e0 ∈ s.events := List.get?_mem hget
  have htrack := track_decomp hget hpk hdrop
  have htrack' := track_closeIdx_decomp hget hpk hupd hdrop s.currentTime
  constructor
  · constructor
    · intro x hx
      rw [hev] at hx
      rw [ht]
      rcases mem_closeIdx hx with hx1 | ⟨e1, hget1, rfl⟩
      · exact hwf.core.start_le x hx1
      · rw [hget] at hget1
        injection hget1 with h1
        subst h1
        exact hwf.core.start_le e0 hmem0
    · intro x hx t hxt
      rw [hev] at hx
      rcases mem_closeIdx hx with hx1 | ⟨e1, hget1, rfl⟩
      · exact hwf.core.start_le_end x hx1 t hxt
      · rw [hget] at hget1
        injection hget1 with h1
        subst h1
        simp at hxt
        rw [← hxt]
        exact hwf.core.start_le e0 hmem0
    · intro x hx hty t hxt
      rw [hev] at hx
      rw [ht]
      rcases mem_closeIdx hx with hx1 | ⟨e1, hget1, rfl⟩
      · exact hwf.core.end_le x hx1 hty t hxt
      · rw [hget] at hget1
        injection hget1 with h1
        subst h1
        simp at hxt
        rw [← hxt]
    · intro x hx hty
      rw [hev] at hx
      rcases mem_closeIdx hx with hx1 | ⟨e1, hget1, rfl⟩
      · exact hwf.core.se_end x hx1 hty
      · rw [hget] at hget1
        injection hget1 with h1
        subst h1
        exact absurd hty (pk_type_ne_se hpk)
    · intro k'
      rw [hev]
      by_cases hk' : k' = k
      · subst hk'
        rw [htrack']
        have hold := hwf.core.chain k'
        rw [htrack] at hold
        exact chain'_close_last s.currentTime hold
      · rw [filter_closeIdx_other hget (pk_false_of_other (pk_iff.mp hpk) hk')]
        exact hwf.core.chain k'
  · intro k'
    by_cases hk' : k' = k
    · subst hk'
      rw [hptrk, hev]
      intro x hx
      rw [htrack'] at hx
      rcases List.mem_append.mp hx with hx1 | hx2
      · have hold := hwf.core.chain k'
        rw [htrack] at hold
        rcases chain'_closed hold x hx1 with ⟨t, ht1, _⟩
        rw [ht1]
        simp
      · simp at hx2
        subst hx2
        simp
    · rw [hptro k' hk', hev]
      exact ptrInv_closeIdx_other hget
        (pk_false_of_other (pk_iff.mp hpk) hk') s.currentTime (hwf.ptr k')
  · exact himg
  · exact hchr

theorem getLast?_mem_self {l : List Event} {a : Event} (h : l.getLast? = some a) :
    a ∈ l := by
  rcases List.mem_getLast?_eq_getLast (Option.mem_def.mpr h) with ⟨hne, rfl⟩
  exact List.getLast_mem hne

/-- Close-and-reopen: the operation shape of `bg`, `image`, `chara_show`,
`playbgm`/`fadeinbgm` and the opening half of `video`. -/
theorem wf_replacePair {s : State} (hwf : WF s) (k : PairKey) (e : Event)
    (hk : pairKeyOf e = some k) (hst : e.startTime = s.currentTime)
    (hend : e.endTime = none) {s' : State}
    (hev : s'.events = (match pointerOf s k with
        | some i => closeIdx s.events i s.currentTime
        | none => s.events) ++ [e])
    (ht : s'.currentTime = s.currentTime)
    (hptrk : pointerOf s' k = some s.events.length)
    (hptro : ∀ k', k' ≠ k → pointerOf s' k' = pointerOf s k')
    (himg : (s'.activeImages.map Prod.fst).Nodup)
    (hchr : (s'.activeCharas.map Prod.fst).Nodup) : WF s' := by
  have hpk_e : pk k e = true := pk_iff.mpr hk
  cases hcase : pointerOf s k with
  | some i =>
    have hptr0 := hwf.ptr k
    rw [hcase] at hptr0
    rcases hptr0 with ⟨e0, hget, hpk, hend0, hdrop⟩
    have hupd : ∀ t : ℚ, pk k { e0 with endTime := some t } = true := by
      intro t; rw [pk_endUpd]; exact hpk
    have hmem0 : e0 ∈ s.events := List.get?_mem hget
    have htrack := track_decomp hget hpk hdrop
    have htrack' := track_closeIdx_decomp hget hpk hupd hdrop s.currentTime
    rw [hcase] at hev
    have hlen : (closeIdx s.events i s.currentTime).length = s.events.length :=
      closeIdx_length _ _ _
    constructor
    · constructor
      · intro x hx
        rw [hev] at hx
        rw [ht]
        rcases List.mem_append.mp hx with hx1 | hx2
        · rcases mem_closeIdx hx1 with hx3 | ⟨e1, hget1, rfl⟩
          · exact hwf.core.start_le x hx3
          · rw [hget] at hget1
            injection hget1 with h1
            subst h1
            exact hwf.core.start_le e0 hmem0
        · simp at hx2
          subst hx2
          rw [hst]
      · intro x hx t hxt
        rw [hev] at hx
        rcases List.mem_append.mp hx with hx1 | hx2
        · rcases mem_closeIdx hx1 with hx3 | ⟨e1, hget1, rfl⟩
          · exact hwf.core.start_le_end x hx3 t hxt
          · rw [hget] at hget1
            injection hget1 with h1
            subst h1
            simp at hxt
            rw [← hxt]
            exact hwf.core.start_le e0 hmem0
        · simp at hx2
          subst hx2
          rw [hend] at hxt
          simp at hxt
      · intro x hx hty t hxt
        rw [hev] at hx
        rw [ht]
        rcases List.mem_append.mp hx with hx1 | hx2
        · rcases mem_closeIdx hx1 with hx3 | ⟨e1, hget1, rfl⟩
          · exact hwf.core.end_le x hx3 hty t hxt
          · rw [hget] at hget1
            injection hget1 with h1
            subst h1
            simp at hxt
            rw [← hxt]
        · simp at hx2
          subst hx2
          rw [hend] at hxt
          simp at hxt
      · intro x hx hty
        rw [hev] at hx
        rcases List.mem_append.mp hx with hx1 | hx2
        · rcases mem_closeIdx hx1 with hx3 | ⟨e1, hget1, rfl⟩
          · exact hwf.core.se_end x hx3 hty
          · rw [hget] at hget1
            injection hget1 with h1
            subst h1
            exact absurd hty (pk_type_ne_se hpk)
        · simp at hx2
          subst hx2
          exact absurd hty (pk_type_ne_se hpk_e)
      · intro k'
        rw [hev]
        by_cases hk' : k' = k
        · subst hk'
          rw [List.filter_append, htrack']
          have hfe : [e].filter (pk k') = [e] := by
            rw [List.filter_cons, hpk_e]
            simp
          rw [hfe]
          have hold := hwf.core.chain k'
          rw [htrack] at hold
          have hchain1 := chain'_close_last s.currentTime hold
          apply chain'_append_singleton hchain1
          intro a ha
          rw [List.getLast?_concat] at ha
          injection ha with ha
          subst ha
          refine ⟨s.currentTime, rfl, ?_, ?_⟩
          · exact hwf.core.start_le e0 hmem0
          · rw [hst]
        · rw [filter_append_other (pk_false_of_other hk hk')]
          rw [filter_closeIdx_other hget (pk_false_of_other (pk_iff.mp hpk) hk')]
          exact hwf.core.chain k'
    · intro k'
      by_cases hk' : k' = k
      · subst hk'
        rw [hptrk, hev]
        refine ⟨e, ?_, hpk_e, hend, ?_⟩
        · rw [← hlen, List.get?_eq_getElem?, List.getElem?_concat_length]
        · rw [← hlen]
          have : ((closeIdx s.events i s.currentTime) ++ [e]).length =
              (closeIdx s.events i s.currentTime).length + 1 := by simp
          rw [List.drop_eq_nil_of_le (by rw [this])]
          rfl
      · rw [hptro k' hk', hev]
        apply ptrInv_append_other (pk_false_of_other hk hk')
        exact ptrInv_closeIdx_other hget
          (pk_false_of_other (pk_iff.mp hpk) hk') s.currentTime (hwf.ptr k')
    · exact himg
    · exact hchr
  | none =>
    have hptr0 := hwf.ptr k
    rw [hcase] at hptr0
    rw [hcase] at hev
    constructor
    · constructor
      · intro x hx
        rw [hev] at hx
        rw [ht]
        rcases List.mem_append.mp hx with hx1 | hx2
        · exact hwf.core.start_le x hx1
        · simp at hx2
          subst hx2
          rw [hst]
      · intro x hx t hxt
        rw [hev] at hx
        rcases List.mem_append.mp hx with hx1 | hx2
        · exact hwf.core.start_le_end x hx1 t hxt
        · simp at hx2
          subst hx2
          rw [hend] at hxt
          simp at hxt
      · intro x hx hty t hxt
        rw [hev] at hx
        rw [ht]
        rcases List.mem_append.mp hx with hx1 | hx2
        · exact hwf.core.end_le x hx1 hty t hxt
        · simp at hx2
          subst hx2
          rw [hend] at hxt
          simp at hxt
      · intro x hx hty
        rw [hev] at hx
        rcases List.mem_append.mp hx with hx1 | hx2
        · exact hwf.core.se_end x hx1 hty
        · simp at hx2
          subst hx2
          exact absurd hty (pk_type_ne_se hpk_e)
      · intro k'
        rw [hev]
        by_cases hk' : k' = k
        · subst hk'
          rw [List.filter_append]
          have hfe : [e].filter (pk k') = [e] := by
            rw [List.filter_cons, hpk_e]
            simp
          rw [hfe]
          apply chain'_append_singleton (hwf.core.chain k')
          intro a ha
          have hamem := getLast?_mem_self ha
          have hane := hptr0 a hamem
          rcases Option.ne_none_iff_exists'.mp hane with ⟨u, hu⟩
          refine ⟨u, hu, ?_, ?_⟩
          · exact hwf.core.start_le_end a (List.mem_filter.mp hamem).1 u hu
          · rw [hst]
            exact hwf.core.end_le a (List.mem_filter.mp hamem).1
              (pk_type_ne_se (List.of_mem_filter hamem)) u hu
        · rw [filter_append_other (pk_false_of_other hk hk')]
          exact hwf.core.chain k'
    · intro k'
      by_cases hk' : k' = k
      · subst hk'
        rw [hptrk, hev]
        refine ⟨e, ?_, hpk_e, hend, ?_⟩
        · rw [List.get?_eq_getElem?, List.getElem?_concat_length]
        · rw [List.drop_eq_nil_of_le (by simp)]
          rfl
      · rw [hptro k' hk', hev]
        exact ptrInv_append_other (pk_false_of_other hk hk') (hwf.ptr k')
    · exact himg
    · exact hchr

/-- Pure clock advance. -/
theorem wf_advance {s : State} (hwf : WF s) (n : ℚ) (hn : 0 ≤ n) {s' : State}
    (hev : s'.events = s.events) (ht : s'.currentTime = s.currentTime + n)
    (hptr : ∀ k', pointerOf s' k' = pointerOf s k')
    (himg : (s'.activeImages.map Prod.fst).Nodup)
    (hchr : (s'.activeCharas.map Prod.fst).Nodup) : WF s' := by
  constructor
  · constructor
    · intro x hx
      rw [hev] at hx
      rw [ht]
      have := hwf.core.start_le x hx
      linarith
    · intro x hx t hxt
      rw [hev] at hx
      exact hwf.core.start_le_end x hx t hxt
    · intro x hx hty t hxt
      rw [hev] at hx
      rw [ht]
      have := hwf.core.end_le x hx hty t hxt
      linarith
    · intro x hx hty
      rw [hev] at hx
      exact hwf.core.se_end x hx hty
    · intro k'
      rw [hev]
      exact hwf.core.chain k'
  · intro k'
    rw [hptr k', hev]
    exact hwf.ptr k'
  · exact himg
  · exact hchr

/-- Appending an already-closed event of pair `k` whose slot is free, with a
possible simultaneous clock advance: the shape of a blocking `movie` /
`bgmovie` and of every text-buffer flush. -/
theorem wf_pushClosed {s : State} (hwf : WF s) (k : PairKey) (b : Event)
    (hk : pairKeyOf b = some k) (hptrk0 : pointerOf s k = none)
    (u : ℚ) (hbend : b.endTime = some u)
    (hstart : b.startTime ≤ s.currentTime) (hsu : b.startTime ≤ u)
    (hlast : ∀ a, (s.events.filter (pk k)).getLast? = some a →
        ∃ v, a.endTime = some v ∧ a.startTime ≤ v ∧ v ≤ b.startTime)
    (n : ℚ) (hn : 0 ≤ n) (hun : u ≤ s.currentTime + n) {s' : State}
    (hev : s'.events = s.events ++ [b])
    (ht : s'.currentTime = s.currentTime + n)
    (hptr : ∀ k', pointerOf s' k' = pointerOf s k')
    (himg : (s'.activeImages.map Prod.fst).Nodup)
    (hchr : (s'.activeCharas.map Prod.fst).Nodup) : WF s' := by
  have hpk_b : pk k b = true := pk_iff.mpr hk
  constructor
  · constructor
    · intro x hx
      rw [hev] at hx
      rw [ht]
      rcases List.mem_append.mp hx with hx1 | hx2
      · have := hwf.core.start_le x hx1
        linarith
      · simp at hx2
        subst hx2
        linarith
    · intro x hx t hxt
      rw [hev] at hx
      rcases List.mem_append.mp hx with hx1 | hx2
      · exact hwf.core.start_le_end x hx1 t hxt
      · simp at hx2
        subst hx2
        rw [hbend] at hxt
        injection hxt with hxt
        rw [← hxt]
        exact hsu
    · intro x hx hty t hxt
      rw [hev] at hx
      rw [ht]
      rcases List.mem_append.mp hx with hx1 | hx2
      · have := hwf.core.end_le x hx1 hty t hxt
        linarith
      · simp at hx2
        subst hx2
        rw [hbend] at hxt
        injection hxt with hxt
        rw [← hxt]
        exact hun
    · intro x hx hty
      rw [hev] at hx
      rcases List.mem_append.mp hx with hx1 | hx2
      · exact hwf.core.se_end x hx1 hty
      · simp at hx2
        subst hx2
        exact absurd hty (pk_type_ne_se hpk_b)
    · intro k'
      rw [hev]
      by_cases hk' : k' = k
      · subst hk'
        rw [List.filter_append]
        have hfe : [b].filter (pk k') = [b] := by
          rw [List.filter_cons, hpk_b]
          simp
        rw [hfe]
        apply chain'_append_singleton (hwf.core.chain k')
        intro a ha
        exact hlast a ha
      · rw [filter_append_other (pk_false_of_other hk hk')]
        exact hwf.core.chain k'
  · intro k'
    rw [hptr k']
    by_cases hk' : k' = k
    · subst hk'
      rw [hptrk0, hev]
      intro x hx
      rw [List.filter_append] at hx
      rcases List.mem_append.mp hx with hx1 | hx2
      · have h0 := hwf.ptr k'
        rw [hptrk0] at h0
        exact h0 x hx1
      · rw [List.filter_cons, hpk_b] at hx2
        simp at hx2
        subst hx2
        rw [hbend]
        simp
    · rw [hev]
      exact ptrInv_append_other (pk_false_of_other hk hk') (hwf.ptr k')
  · exact himg
  · exact hchr

/-- Appending a sound-effect event (closed at creation, no pair key). -/
theorem wf_pushSe {s : State} (hwf : WF s) (b : Event) (hty : b.type = .se)
    (hst : b.startTime = s.currentTime)
    (hend : b.endTime = some (b.startTime + 1/2)) {s' : State}
    (hev : s'.events = s.events ++ [b])
    (ht : s'.currentTime = s.currentTime)
    (hptr : ∀ k', pointerOf s' k' = pointerOf s k')
    (himg : (s'.activeImages.map Prod.fst).Nodup)
    (hchr : (s'.activeCharas.map Prod.fst).Nodup) : WF s' := by
  constructor
  · constructor
    · intro x hx
      rw [hev] at hx
      rw [ht]
      rcases List.mem_append.mp hx with hx1 | hx2
      · exact hwf.core.start_le x hx1
      · simp at hx2
        subst hx2
        rw [hst]
    · intro x hx t hxt
      rw [hev] at hx
      rcases List.mem_append.mp hx with hx1 | hx2
      · exact hwf.core.start_le_end x hx1 t hxt
      · simp at hx2
        subst hx2
        rw [hend] at hxt
        injection hxt with hxt
        rw [← hxt]
        linarith
    · intro x hx hty2 t hxt
      rw [hev] at hx
      rw [ht]
      rcases List.mem_append.mp hx with hx1 | hx2
      · exact hwf.core.end_le x hx1 hty2 t hxt
      · simp at hx2
        subst hx2
        exact absurd hty hty2
    · intro x hx hty2
      rw [hev] at hx
      rcases List.mem_append.mp hx with hx1 | hx2
      · exact hwf.core.se_end x hx1 hty2
      · simp at hx2
        subst hx2
        exact hend
    · intro k'
      rw [hev, filter_append_other (pk_false_of_se hty)]
      exact hwf.core.chain k'
  · intro k'
    rw [hptr k', hev]
    exact ptrInv_append_other (pk_false_of_se hty) (hwf.ptr k')
  · exact himg
  · exact hchr

theorem lookupA_eq_none_of_not_mem_keys {m : List (String × Nat)} {k : String}
    (h : ¬ k ∈ m.map Prod.fst) : lookupA m k = none := by
  induction m with
  | nil => rfl
  | cons q rest ih =>
    have hq : ¬ q.1 = k := by
      intro hq
      apply h
      rw [List.map_cons, hq]
      exact List.mem_cons_self _ _
    rw [lookupA_cons_of_neg hq]
    apply ih
    intro hmem
    apply h
    rw [List.map_cons]
    exact List.mem_cons_of_mem _ hmem

/-- When a pair has no active reference, its last track event (if any) is
closed no later than the clock. -/
theorem last_closed_le {s : State} (hwf : WF s) {k : PairKey}
    (hptr : pointerOf s k = none) :
    ∀ a, (s.events.filter (pk k)).getLast? = some a →
      ∃ v, a.endTime = some v ∧ a.startTime ≤ v ∧ v ≤ s.currentTime := by
  intro a ha
  have h0 := hwf.ptr k
  rw [hptr] at h0
  have hamem := getLast?_mem_self ha
  rcases Option.ne_none_iff_exists'.mp (h0 a hamem) with ⟨v, hv⟩
  refine ⟨v, hv, ?_, ?_⟩
  · exact hwf.core.start_le_end a (List.mem_filter.mp hamem).1 v hv
  · exact hwf.core.end_le a (List.mem_filter.mp hamem).1
      (pk_type_ne_se (List.of_mem_filter hamem)) v hv

theorem closeIdx_concat (evs : List Event) (e : Event) (t : ℚ) :
    closeIdx (evs ++ [e]) evs.length t = evs ++ [{ e with endTime := some t }] := by
  have hget : (evs ++ [e]).get? evs.length = some e := by
    rw [List.get?_eq_getElem?, List.getElem?_concat_length]
  rw [closeIdx_of_get? hget, set_decomp_of_get? hget]
  have htake : (evs ++ [e]).take evs.length = evs := List.take_left evs [e]
  have hdrop : (evs ++ [e]).drop (evs.length + 1) = [] :=
    List.drop_eq_nil_of_le (by simp)
  rw [htake, hdrop]

/-- The conclusions needed about every non-pacing command step: the invariant
is preserved, the text track is untouched, and the clock does not go back. -/
structure StepOK (s s' : State) : Prop where
  wf : WF s'
  tx_eq : s'.events.filter (pk .tx) = s.events.filter (pk .tx)
  time_mono : s.currentTime ≤ s'.currentTime

theorem stepOK_id {s : State} (hwf : WF s) : StepOK s s :=
  ⟨hwf, rfl, le_refl _⟩

/-- `processBg` preserves the invariant. -/
theorem processBg_ok {s : State} (hwf : WF s) (params : Params) (fn : String)
    (ln : Nat) : StepOK s (processBg s params fn ln) := by
  have hlen : (match s.activeBg with
      | some i => closeIdx s.events i s.currentTime
      | none => s.events).length = s.events.length := by
    cases s.activeBg <;> simp [closeIdx_length]
  refine ⟨?_, ?_, le_refl _⟩
  · refine wf_replacePair hwf PairKey.bgk
      { type := .bg, storage := getParam params "storage",
        startTime := s.currentTime, endTime := none,
        filename := fn, line := some ln }
      rfl rfl rfl ?_ rfl ?_ ?_ hwf.imgKeys hwf.chrKeys
    · show (match s.activeBg with
        | some i => closeIdx s.events i s.currentTime
        | none => s.events) ++ [_] = _ ++ [_]
      rw [show pointerOf s PairKey.bgk = s.activeBg from rfl]
    · have h2 : pointerOf (processBg s params fn ln) PairKey.bgk =
          some (match s.activeBg with
            | some i => closeIdx s.events i s.currentTime
            | none => s.events).length := rfl
      rw [h2, hlen]
    · intro k' hk'
      cases k' with
      | bgk => exact absurd rfl hk'
      | tx => rfl
      | vid => rfl
      | bgmk => rfl
      | img l => rfl
      | chr n => rfl
  · show ((match s.activeBg with
        | some i => closeIdx s.events i s.currentTime
        | none => s.events) ++ [_]).filter (pk .tx) = _
    cases hbg : s.activeBg with
    | none => exact filter_append_other (by rfl)
    | some i =>
      have h0 := hwf.ptr .bgk
      rw [show pointerOf s .bgk = s.activeBg from rfl, hbg] at h0
      rcases h0 with ⟨e0, hget, hpk, _, _⟩
      rw [filter_append_other (by rfl)]
      exact filter_closeIdx_other hget
        (pk_false_of_other (pk_iff.mp hpk) (by simp)) s.currentTime

/-- `processBgmStart` preserves the invariant. -/
theorem processBgmStart_ok {s : State} (hwf : WF s) (command : String) (params : Params)
    (fn : String) (ln : Nat) : StepOK s (processBgmStart s command params fn ln) := by
  have hlen : (match s.activeBgm with
      | some i => closeIdx s.events i s.currentTime
      | none => s.events).length = s.events.length := by
    cases s.activeBgm <;> simp [closeIdx_length]
  refine ⟨?_, ?_, le_refl _⟩
  · refine wf_replacePair hwf PairKey.bgmk
      { type := .bgm, command := some command, storage := getParam params "storage",
        startTime := s.currentTime, endTime := none,
        filename := fn, line := some ln,
        loop := some (decide ¬ getParam params "loop" = some "false") }
      rfl rfl rfl ?_ rfl ?_ ?_ hwf.imgKeys hwf.chrKeys
    · show (match s.activeBgm with
        | some i => closeIdx s.events i s.currentTime
        | none => s.events) ++ [_] = _ ++ [_]
      rw [show pointerOf s PairKey.bgmk = s.activeBgm from rfl]
    · have h2 : pointerOf (processBgmStart s command params fn ln) PairKey.bgmk =
          some (match s.activeBgm with
            | some i => closeIdx s.events i s.currentTime
            | none => s.events).length := rfl
      rw [h2, hlen]
    · intro k' hk'
      cases k' with
      | bgmk => exact absurd rfl hk'
      | tx => rfl
      | vid => rfl
      | bgk => rfl
      | img l => rfl
      | chr n => rfl
  · show ((match s.activeBgm with
        | some i => closeIdx s.events i s.currentTime
        | none => s.events) ++ [_]).filter (pk .tx) = _
    cases hbgm : s.activeBgm with
    | none => exact filter_append_other (by rfl)
    | some i =>
      have h0 := hwf.ptr .bgmk
      rw [show pointerOf s .bgmk = s.activeBgm from rfl, hbgm] at h0
      rcases h0 with ⟨e0, hget, hpk, _, _⟩
      rw [filter_append_other (by rfl)]
      exact filter_closeIdx_other hget
        (pk_false_of_other (pk_iff.mp hpk) (by simp)) s.currentTime

/-- `processBgmStop` preserves the invariant. -/
theorem processBgmStop_ok {s : State} (hwf : WF s) :
    StepOK s (processBgmStop s) := by
  cases hbgm : s.activeBgm with
  | none =>
    have : processBgmStop s = s := by
      unfold processBgmStop
      rw [hbgm]
    rw [this]
    exact stepOK_id hwf
  | some i =>
    have hres : processBgmStop s =
        { s with events := closeIdx s.events i s.currentTime, activeBgm := none } := by
      unfold processBgmStop
      rw [hbgm]
    have hp : pointerOf s PairKey.bgmk = some i := by
      rw [show pointerOf s PairKey.bgmk = s.activeBgm from rfl, hbgm]
    have h0 := hwf.ptr .bgmk
    rw [hp] at h0
    rcases h0 with ⟨e0, hget, hpk, _, _⟩
    rw [hres]
    refine ⟨?_, ?_, le_refl _⟩
    · refine wf_closePair hwf PairKey.bgmk i hp rfl rfl rfl ?_ hwf.imgKeys hwf.chrKeys
      intro k' hk'
      cases k' with
      | bgmk => exact absurd rfl hk'
      | tx => rfl
      | vid => rfl
      | bgk => rfl
      | img l => rfl
      | chr n => rfl
    · exact filter_closeIdx_other hget
        (pk_false_of_other (pk_iff.mp hpk) (by simp)) s.currentTime

/-- `processWaitVideo` preserves the invariant. -/
theorem processWaitVideo_ok {s : State} (hwf : WF s) :
    StepOK s (processWaitVideo s) := by
  cases hv : s.activeVideo with
  | none =>
    have : processWaitVideo s = s := by
      unfold processWaitVideo
      rw [hv]
    rw [this]
    exact stepOK_id hwf
  | some i =>
    have hres : processWaitVideo s =
        { s with events := closeIdx s.events i s.currentTime, activeVideo := none } := by
      unfold processWaitVideo
      rw [hv]
    have hp : pointerOf s PairKey.vid = some i := by
      rw [show pointerOf s PairKey.vid = s.activeVideo from rfl, hv]
    have h0 := hwf.ptr .vid
    rw [hp] at h0
    rcases h0 with ⟨e0, hget, hpk, _, _⟩
    rw [hres]
    refine ⟨?_, ?_, le_refl _⟩
    · refine wf_closePair hwf PairKey.vid i hp rfl rfl rfl ?_ hwf.imgKeys hwf.chrKeys
      intro k' hk'
      cases k' with
      | vid => exact absurd rfl hk'
      | tx => rfl
      | bgmk => rfl
      | bgk => rfl
      | img l => rfl
      | chr n => rfl
    · exact filter_closeIdx_other hget
        (pk_false_of_other (pk_iff.mp hpk) (by simp)) s.currentTime

/-- `processFreeVideo` preserves the invariant. -/
theorem processFreeVideo_ok {s : State} (hwf : WF s) :
    StepOK s (processFreeVideo s) := by
  have : processFreeVideo s = processWaitVideo s := by
    unfold processFreeVideo processWaitVideo
    rfl
  rw [this]
  exact processWaitVideo_ok hwf

/-- `processSe` preserves the invariant. -/
theorem processSe_ok {s : State} (hwf : WF s) (command : String) (params : Params)
    (fn : String) (ln : Nat) : StepOK s (processSe s command params fn ln) := by
  refine ⟨?_, ?_, le_refl _⟩
  · refine wf_pushSe hwf
      { type := .se, command := some command, storage := getParam params "storage",
        startTime := s.currentTime, endTime := some (s.currentTime + 1/2),
        filename := fn, line := some ln,
        buf := some (jsOrStr (getParam params "buf") "0") }
      rfl rfl rfl rfl rfl ?_ hwf.imgKeys hwf.chrKeys
    intro k'
    cases k' with
    | tx => rfl
    | vid => rfl
    | bgmk => rfl
    | bgk => rfl
    | img l => rfl
    | chr n => rfl
  · exact filter_append_other (by rfl)

/-- `processImage` preserves the invariant. -/
theorem processImage_ok {s : State} (hwf : WF s) (params : Params) (fn : String)
    (ln : Nat) : StepOK s (processImage s params fn ln) := by
  have hlen : (match lookupA s.activeImages (jsOrStr (getParam params "layer") "0") with
      | some i => closeIdx s.events i s.currentTime
      | none => s.events).length = s.events.length := by
    cases lookupA s.activeImages (jsOrStr (getParam params "layer") "0") <;>
      simp [closeIdx_length]
  refine ⟨?_, ?_, le_refl _⟩
  · refine wf_replacePair hwf (PairKey.img (jsOrStr (getParam params "layer") "0"))
      { type := .image, layer := some (jsOrStr (getParam params "layer") "0"),
        storage := getParam params "storage",
        startTime := s.currentTime, endTime := none,
        filename := fn, line := some ln,
        x := getParam params "x", y := getParam params "y" }
      rfl rfl rfl ?_ rfl ?_ ?_ ?_ hwf.chrKeys
    · show (match lookupA s.activeImages (jsOrStr (getParam params "layer") "0") with
        | some i => closeIdx s.events i s.currentTime
        | none => s.events) ++ [_] = _ ++ [_]
      rw [show pointerOf s (PairKey.img (jsOrStr (getParam params "layer") "0")) =
        lookupA s.activeImages (jsOrStr (getParam params "layer") "0") from rfl]
    · have h2 : pointerOf (processImage s params fn ln)
          (PairKey.img (jsOrStr (getParam params "layer") "0")) =
          lookupA (insertA s.activeImages (jsOrStr (getParam params "layer") "0")
            (match lookupA s.activeImages (jsOrStr (getParam params "layer") "0") with
              | some i => closeIdx s.events i s.currentTime
              | none => s.events).length)
            (jsOrStr (getParam params "layer") "0") := rfl
      rw [h2, lookupA_insertA_self, hlen]
    · intro k' hk'
      cases k' with
      | tx => rfl
      | vid => rfl
      | bgmk => rfl
      | bgk => rfl
      | chr n => rfl
      | img l =>
        have hne : ¬ l = jsOrStr (getParam params "layer") "0" := by
          intro h
          exact hk' (by rw [h])
        show lookupA (insertA s.activeImages (jsOrStr (getParam params "layer") "0") _) l =
          lookupA s.activeImages l
        rw [lookupA_insertA_ne _ _ hne]
    · exact insertA_keys_nodup hwf.imgKeys _ _
  · show ((match lookupA s.activeImages (jsOrStr (getParam params "layer") "0") with
        | some i => closeIdx s.events i s.currentTime
        | none => s.events) ++ [_]).filter (pk .tx) = _
    cases himg : lookupA s.activeImages (jsOrStr (getParam params "layer") "0") with
    | none => exact filter_append_other (by rfl)
    | some i =>
      have h0 := hwf.ptr (.img (jsOrStr (getParam params "layer") "0"))
      rw [show pointerOf s (.img (jsOrStr (getParam params "layer") "0")) =
        lookupA s.activeImages (jsOrStr (getParam params "layer") "0") from rfl, himg] at h0
      rcases h0 with ⟨e0, hget, hpk, _, _⟩
      rw [filter_append_other (by rfl)]
      exact filter_closeIdx_other hget
        (pk_false_of_other (pk_iff.mp hpk) (by simp)) s.currentTime

/-- `processFreeImage` preserves the invariant. -/
theorem processFreeImage_ok {s : State} (hwf : WF s) (params : Params) :
    StepOK s (processFreeImage s params) := by
  unfold processFreeImage
  cases hlay : (match getParam params "layer" with
    | some v => if v = "" then getParam params "name" else some v
    | none => getParam params "name") with
  | none => exact stepOK_id hwf
  | some l =>
    simp only []
    by_cases hl : l ≠ ""
    · rw [if_pos hl]
      cases hlook : lookupA s.activeImages l with
      | none => exact stepOK_id hwf
      | some i =>
        simp only []
        have hp : pointerOf s (PairKey.img l) = some i := by
          rw [show pointerOf s (PairKey.img l) = lookupA s.activeImages l from rfl, hlook]
        have h0 := hwf.ptr (.img l)
        rw [hp] at h0
        rcases h0 with ⟨e0, hget, hpk, _, _⟩
        refine ⟨?_, ?_, le_refl _⟩
        · refine wf_closePair hwf (PairKey.img l) i hp rfl rfl ?_ ?_ ?_ hwf.chrKeys
          · show lookupA (eraseA s.activeImages l) l = none
            exact lookupA_eraseA_self _ _
          · intro k' hk'
            cases k' with
            | tx => rfl
            | vid => rfl
            | bgmk => rfl
            | bgk => rfl
            | chr n => rfl
            | img l2 =>
              have hne : ¬ l2 = l := by
                intro h
                exact hk' (by rw [h])
              show lookupA (eraseA s.activeImages l) l2 = lookupA s.activeImages l2
              exact lookupA_eraseA_ne _ hne
          · exact eraseA_keys_nodup hwf.imgKeys _
        · exact filter_closeIdx_other hget
            (pk_false_of_other (pk_iff.mp hpk) (by simp)) s.currentTime
    · rw [if_neg hl]
      exact stepOK_id hwf

/-- `processCharaShow` preserves the invariant. -/
theorem processCharaShow_ok {s : State} (hwf : WF s) (params : Params) (fn : String)
    (ln : Nat) : StepOK s (processCharaShow s params fn ln) := by
  unfold processCharaShow
  cases hnm : getParam params "name" with
  | none => exact stepOK_id hwf
  | some nm =>
    simp only []
    by_cases hn0 : nm = ""
    · rw [if_pos hn0]
      exact stepOK_id hwf
    · rw [if_neg hn0]
      have hlen : (match lookupA s.activeCharas nm with
          | some i => closeIdx s.events i s.currentTime
          | none => s.events).length = s.events.length := by
        cases lookupA s.activeCharas nm <;> simp [closeIdx_length]
      refine ⟨?_, ?_, le_refl _⟩
      · refine wf_replacePair hwf (PairKey.chr nm)
          { type := .chara, name := some nm, face := getParam params "face",
            storage := getParam params "storage",
            startTime := s.currentTime, endTime := none,
            filename := fn, line := some ln }
          rfl rfl rfl ?_ rfl ?_ ?_ hwf.imgKeys ?_
        · show (match lookupA s.activeCharas nm with
            | some i => closeIdx s.events i s.currentTime
            | none => s.events) ++ [_] = _ ++ [_]
          rw [show pointerOf s (PairKey.chr nm) = lookupA s.activeCharas nm from rfl]
        · have h2 : lookupA (insertA s.activeCharas nm
              (match lookupA s.activeCharas nm with
                | some i => closeIdx s.events i s.currentTime
                | none => s.events).length) nm =
              some (match lookupA s.activeCharas nm with
                | some i => closeIdx s.events i s.currentTime
                | none => s.events).length := lookupA_insertA_self _ _ _
          show lookupA (insertA s.activeCharas nm _) nm = some s.events.length
          rw [h2, hlen]
        · intro k' hk'
          cases k' with
          | tx => rfl
          | vid => rfl
          | bgmk => rfl
          | bgk => rfl
          | img l => rfl
          | chr n2 =>
            have hne : ¬ n2 = nm := by
              intro h
              exact hk' (by rw [h])
            show lookupA (insertA s.activeCharas nm _) n2 = lookupA s.activeCharas n2
            rw [lookupA_insertA_ne _ _ hne]
        · exact insertA_keys_nodup hwf.chrKeys _ _
      · show ((match lookupA s.activeCharas nm with
            | some i => closeIdx s.events i s.currentTime
            | none => s.events) ++ [_]).filter (pk .tx) = _
        cases hch : lookupA s.activeCharas nm with
        | none => exact filter_append_other (by rfl)
        | some i =>
          have h0 := hwf.ptr (.chr nm)
          rw [show pointerOf s (.chr nm) = lookupA s.activeCharas nm from rfl, hch] at h0
          rcases h0 with ⟨e0, hget, hpk, _, _⟩
          rw [filter_append_other (by rfl)]
          exact filter_closeIdx_other hget
            (pk_false_of_other (pk_iff.mp hpk) (by simp)) s.currentTime

/-- `processCharaHide` preserves the invariant. -/
theorem processCharaHide_ok {s : State} (hwf : WF s) (params : Params) :
    StepOK s (processCharaHide s params) := by
  unfold processCharaHide
  cases hnm : getParam params "name" with
  | none => exact stepOK_id hwf
  | some nm =>
    simp only []
    by_cases hn0 : nm = ""
    · rw [if_pos hn0]
      exact stepOK_id hwf
    · rw [if_neg hn0]
      cases hlook : lookupA s.activeCharas nm with
      | none => exact stepOK_id hwf
      | some i =>
        simp only []
        have hp : pointerOf s (PairKey.chr nm) = some i := by
          rw [show pointerOf s (PairKey.chr nm) = lookupA s.activeCharas nm from rfl, hlook]
        have h0 := hwf.ptr (.chr nm)
        rw [hp] at h0
        rcases h0 with ⟨e0, hget, hpk, _, _⟩
        refine ⟨?_, ?_, le_refl _⟩
        · refine wf_closePair hwf (PairKey.chr nm) i hp rfl rfl ?_ ?_ hwf.imgKeys ?_
          · show lookupA (eraseA s.activeCharas nm) nm = none
            exact lookupA_eraseA_self _ _
          · intro k' hk'
            cases k' with
            | tx => rfl
            | vid => rfl
            | bgmk => rfl
            | bgk => rfl
            | img l => rfl
            | chr n2 =>
              have hne : ¬ n2 = nm := by
                intro h
                exact hk' (by rw [h])
              show lookupA (eraseA s.activeCharas nm) n2 = lookupA s.activeCharas n2
              exact lookupA_eraseA_ne _ hne
          · exact eraseA_keys_nodup hwf.chrKeys _
        · exact filter_closeIdx_other hget
            (pk_false_of_other (pk_iff.mp hpk) (by simp)) s.currentTime

/-- Inner induction for `processCharaHideAll`: close the events referenced by
a suffix of the character map. -/
theorem wf_charaHideAll_aux : ∀ (entries : List (String × Nat)) (s : State),
    WF s → s.activeCharas = entries →
    WF { s with
      events := entries.foldl (fun acc p => closeIdx acc p.2 s.currentTime) s.events,
      activeCharas := [] } ∧
    (entries.foldl (fun acc p => closeIdx acc p.2 s.currentTime) s.events).filter
      (pk .tx) = s.events.filter (pk .tx) := by
  intro entries
  induction entries with
  | nil =>
    intro s hwf hctx
    constructor
    · constructor
      · exact hwf.core
      · intro k
        cases k with
        | tx => exact hwf.ptr .tx
        | bgk => exact hwf.ptr .bgk
        | bgmk => exact hwf.ptr .bgmk
        | vid => exact hwf.ptr .vid
        | img l => exact hwf.ptr (.img l)
        | chr n =>
          have h0 := hwf.ptr (.chr n)
          show PtrInv s.events (pk (.chr n)) (lookupA [] n)
          rw [show pointerOf s (.chr n) = lookupA s.activeCharas n from rfl, hctx] at h0
          exact h0
      · exact hwf.imgKeys
      · exact List.nodup_nil
    · rfl
  | cons p rest ih =>
    intro s hwf hctx
    have hp : pointerOf s (PairKey.chr p.1) = some p.2 := by
      rw [show pointerOf s (PairKey.chr p.1) = lookupA s.activeCharas p.1 from rfl, hctx]
      exact lookupA_cons_of_pos rfl
    have h0 := hwf.ptr (.chr p.1)
    rw [hp] at h0
    rcases h0 with ⟨e0, hget, hpk, _, _⟩
    have hkeys : ((p :: rest).map Prod.fst).Nodup := by
      rw [← hctx]
      exact hwf.chrKeys
    have hnodup_rest : (rest.map Prod.fst).Nodup := by
      rw [List.map_cons, List.nodup_cons] at hkeys
      exact hkeys.2
    have hnotin : ¬ p.1 ∈ rest.map Prod.fst := by
      rw [List.map_cons, List.nodup_cons] at hkeys
      exact hkeys.1
    have hwf1 : WF { s with
        events := closeIdx s.events p.2 s.currentTime,
        activeCharas := rest } := by
      refine wf_closePair hwf (PairKey.chr p.1) p.2 hp rfl rfl ?_ ?_ hwf.imgKeys
        hnodup_rest
      · show lookupA rest p.1 = none
        exact lookupA_eq_none_of_not_mem_keys hnotin
      · intro k' hk'
        cases k' with
        | tx => rfl
        | vid => rfl
        | bgmk => rfl
        | bgk => rfl
        | img l => rfl
        | chr n2 =>
          have hne : ¬ n2 = p.1 := by
            intro h
            exact hk' (by rw [h])
          show lookupA rest n2 = lookupA s.activeCharas n2
          rw [hctx]
          rw [lookupA_cons_of_neg (by simpa using fun h => hne h.symm)]
    have hres := ih { s with
        events := closeIdx s.events p.2 s.currentTime,
        activeCharas := rest } hwf1 rfl
    constructor
    · exact hres.1
    · rw [List.foldl_cons]
      calc ((rest.foldl (fun acc q => closeIdx acc q.2 s.currentTime)
            (closeIdx s.events p.2 s.currentTime)).filter (pk .tx))
          = (closeIdx s.events p.2 s.currentTime).filter (pk .tx) := hres.2
        _ = s.events.filter (pk .tx) := filter_closeIdx_other hget
            (pk_false_of_other (pk_iff.mp hpk) (by simp)) s.currentTime

/-- `processCharaHideAll` preserves the invariant. -/
theorem processCharaHideAll_ok {s : State} (hwf : WF s) :
    StepOK s (processCharaHideAll s) := by
  have h := wf_charaHideAll_aux s.activeCharas s hwf rfl
  exact ⟨h.1, h.2, le_refl _⟩

/-- `processVideo` preserves the invariant. -/
theorem processVideo_ok {s : State} (hwf : WF s) (command : String) (params : Params)
    (fn : String) (ln : Nat) : StepOK s (processVideo s command params fn ln) := by
  by_cases hcmd : command = "movie" ∨ command = "bgmovie"
  · -- blocking: close any active video, push a self-closed event, advance
    cases hv : s.activeVideo with
    | none =>
      have hres : processVideo s command params fn ln =
          { s with
            events := s.events ++
              [{ type := .video, command := some command,
                 storage := getParam params "storage",
                 startTime := s.currentTime,
                 endTime := some (s.currentTime + 1),
                 filename := fn, line := some ln }],
            currentTime := s.currentTime + 1 } := by
        unfold processVideo
        conv_lhs => rw [hv]
        simp only [if_pos hcmd]
        rw [closeIdx_concat]
      rw [hres]
      have hptrv : pointerOf s PairKey.vid = none := by
        rw [show pointerOf s PairKey.vid = s.activeVideo from rfl, hv]
      refine ⟨?_, ?_, by simp⟩
      · refine wf_pushClosed hwf PairKey.vid
          { type := .video, command := some command,
            storage := getParam params "storage",
            startTime := s.currentTime,
            endTime := some (s.currentTime + 1),
            filename := fn, line := some ln }
          rfl hptrv (s.currentTime + 1) rfl
          (le_refl _) (by simp) (last_closed_le hwf hptrv) 1 (by norm_num)
          (le_refl _) rfl rfl ?_ hwf.imgKeys hwf.chrKeys
        intro k'
        cases k' with
        | tx => rfl
        | vid => exact hptrv.symm ▸ rfl
        | bgmk => rfl
        | bgk => rfl
        | img l => rfl
        | chr n => rfl
      · exact filter_append_other (by rfl)
    | some i =>
      have hp : pointerOf s PairKey.vid = some i := by
        rw [show pointerOf s PairKey.vid = s.activeVideo from rfl, hv]
      have h0 := hwf.ptr .vid
      rw [hp] at h0
      rcases h0 with ⟨e0, hget, hpk, _, _⟩
      have hwf1 : WF { s with
          events := closeIdx s.events i s.currentTime,
          activeVideo := none } := by
        refine wf_closePair hwf PairKey.vid i hp rfl rfl rfl ?_ hwf.imgKeys hwf.chrKeys
        intro k' hk'
        cases k' with
        | vid => exact absurd rfl hk'
        | tx => rfl
        | bgmk => rfl
        | bgk => rfl
        | img l => rfl
        | chr n => rfl
      have hres : processVideo s command params fn ln =
          { s with
            events := closeIdx s.events i s.currentTime ++
              [{ type := .video, command := some command,
                 storage := getParam params "storage",
                 startTime := s.currentTime,
                 endTime := some (s.currentTime + 1),
                 filename := fn, line := some ln }],
            currentTime := s.currentTime + 1, activeVideo := none } := by
        unfold processVideo
        conv_lhs => rw [hv]
        simp only [if_pos hcmd]
        rw [closeIdx_concat]
      rw [hres]
      refine ⟨?_, ?_, by simp⟩
      · refine wf_pushClosed hwf1 PairKey.vid
          { type := .video, command := some command,
            storage := getParam params "storage",
            startTime := s.currentTime,
            endTime := some (s.currentTime + 1),
            filename := fn, line := some ln }
          rfl rfl (s.currentTime + 1) rfl
          (le_refl _) (by simp) (last_closed_le hwf1 rfl) 1 (by norm_num)
          (le_refl _) rfl rfl ?_ hwf1.imgKeys hwf1.chrKeys
        intro k'
        cases k' with
        | tx => rfl
        | vid => rfl
        | bgmk => rfl
        | bgk => rfl
        | img l => rfl
        | chr n => rfl
      · rw [filter_append_other (by rfl)]
        exact filter_closeIdx_other hget
          (pk_false_of_other (pk_iff.mp hpk) (by simp)) s.currentTime
  · -- streaming `video`: close-and-reopen
    have hlen : (match s.activeVideo with
        | some i => closeIdx s.events i s.currentTime
        | none => s.events).length = s.events.length := by
      cases s.activeVideo <;> simp [closeIdx_length]
    have hres : processVideo s command params fn ln =
        { s with
          events := (match s.activeVideo with
            | some i => closeIdx s.events i s.currentTime
            | none => s.events) ++
            [{ type := .video, command := some command,
               storage := getParam params "storage",
               startTime := s.currentTime,
               endTime := none, filename := fn, line := some ln }],
          activeVideo := some (match s.activeVideo with
            | some i => closeIdx s.events i s.currentTime
            | none => s.events).length } := by
      unfold processVideo
      cases s.activeVideo <;> simp only [if_neg hcmd] <;> simp [closeIdx_length]
    rw [hres]
    refine ⟨?_, ?_, le_refl _⟩
    · refine wf_replacePair hwf PairKey.vid
        { type := .video, command := some command,
          storage := getParam params "storage",
          startTime := s.currentTime, endTime := none,
          filename := fn, line := some ln }
        rfl rfl rfl ?_ rfl ?_ ?_ hwf.imgKeys hwf.chrKeys
      · show (match s.activeVideo with
          | some i => closeIdx s.events i s.currentTime
          | none => s.events) ++ [_] = _ ++ [_]
        rw [show pointerOf s PairKey.vid = s.activeVideo from rfl]
      · have h2 : pointerOf (processVideo s command params fn ln) PairKey.vid =
            some (match s.activeVideo with
              | some i => closeIdx s.events i s.currentTime
              | none => s.events).length := by
          rw [hres]
          rfl
        rw [← hres, h2, hlen]
      · intro k' hk'
        cases k' with
        | vid => exact absurd rfl hk'
        | tx => rfl
        | bgmk => rfl
        | bgk => rfl
        | img l => rfl
        | chr n => rfl
    · show ((match s.activeVideo with
          | some i => closeIdx s.events i s.currentTime
          | none => s.events) ++ [_]).filter (pk .tx) = _
      cases hv : s.activeVideo with
      | none => exact filter_append_other (by rfl)
      | some i =>
        have h0 := hwf.ptr .vid
        rw [show pointerOf s .vid = s.activeVideo from rfl, hv] at h0
        rcases h0 with ⟨e0, hget, hpk, _, _⟩
        rw [filter_append_other (by rfl)]
        exact filter_closeIdx_other hget
          (pk_false_of_other (pk_iff.mp hpk) (by simp)) s.currentTime

/-- `processCommand` preserves the invariant for every command string. -/
theorem processCommand_ok {s : State} (hwf : WF s) (command : String) (params : Params)
    (fn : String) (ln : Nat) : StepOK s (processCommand s command params fn ln) := by
  unfold processCommand
  split
  · exact processBg_ok hwf params fn ln
  · exact processImage_ok hwf params fn ln
  · exact processFreeImage_ok hwf params
  · exact processCharaShow_ok hwf params fn ln
  · exact processCharaHide_ok hwf params
  · exact processCharaHideAll_ok hwf
  · exact processVideo_ok hwf _ params fn ln
  · exact processVideo_ok hwf _ params fn ln
  · exact processVideo_ok hwf _ params fn ln
  · exact processWaitVideo_ok hwf
  · exact processFreeVideo_ok hwf
  · exact processBgmStart_ok hwf _ params fn ln
  · exact processBgmStart_ok hwf _ params fn ln
  · exact processBgmStop_ok hwf
  · exact processBgmStop_ok hwf
  · exact processSe_ok hwf _ params fn ln
  · exact processSe_ok hwf _ params fn ln
  · exact stepOK_id hwf

theorem StepOK.comp {s1 s2 s3 : State} (h12 : StepOK s1 s2) (h23 : StepOK s2 s3) :
    StepOK s1 s3 :=
  ⟨h23.wf, h23.tx_eq.trans h12.tx_eq, le_trans h12.time_mono h23.time_mono⟩

/-- `processAtCommand` preserves the invariant. -/
theorem processAtCommand_ok {s : State} (hwf : WF s) (line : List Char) (fn : String)
    (ln : Nat) : StepOK s (processAtCommand s line fn ln) :=
  processCommand_ok hwf _ _ fn ln

/-- The tag fold of `processLineWithTags` preserves the invariant. -/
theorem foldTags_ok (fn : String) (ln : Nat) :
    ∀ (L : List (List Char × List Char)) (s : State), WF s →
      StepOK s (L.foldl (fun acc q =>
        processCommand acc (lstr (toLowerL ((jsTrim q.2).takeWhile (fun c => !isWS c))))
          (scanParams q.2) fn ln) s) := by
  intro L
  induction L with
  | nil => intro s hwf; exact stepOK_id hwf
  | cons q rest ih =>
    intro s hwf
    rw [List.foldl_cons]
    have h1 := processCommand_ok hwf
      (lstr (toLowerL ((jsTrim q.2).takeWhile (fun c => !isWS c)))) (scanParams q.2) fn ln
    exact h1.comp (ih _ h1.wf)

/-- `processLineWithTags` preserves the invariant. -/
theorem processLineWithTags_ok {s : State} (hwf : WF s) (line : List Char) (fn : String)
    (ln : Nat) : StepOK s (processLineWithTags s line fn ln).1 :=
  foldTags_ok fn ln (scanTags line).1 s hwf

/-- Transport of the buffer bookkeeping across a command step. -/
theorem ctxInv_transport {s s' : State} {ctx ctx' : Ctx} (hctx : CtxInv s ctx)
    (htx : s'.events.filter (pk .tx) = s.events.filter (pk .tx))
    (hmono : s.currentTime ≤ s'.currentTime)
    (htst : ctx'.textStartTime = ctx.textStartTime) : CtxInv s' ctx' := by
  constructor
  · rw [htst]
    exact le_trans hctx.tst_le hmono
  · intro a ha v hv
    rw [htst]
    rw [htx] at ha
    exact hctx.last_le a ha v hv

theorem flushBuf_time (s : State) (ctx : Ctx) (en : ℚ) (fn : String) :
    (flushBuf s ctx en fn).currentTime = s.currentTime := by
  unfold flushBuf addTextEvent
  by_cases h : jsTrim (String.join ctx.textBuffer).data = []
  · rw [if_pos h]
  · rw [if_neg h]

theorem flushBuf_of_empty {s : State} {ctx : Ctx} (h : ctx.textBuffer = [])
    (en : ℚ) (fn : String) : flushBuf s ctx en fn = s := by
  unfold flushBuf addTextEvent
  rw [if_pos]
  rw [h]
  rfl

/-- Flushing the buffer at `en` and moving the clock to `c'` preserves the
invariant; afterwards the last text event ends no later than
`max en ctx.textStartTime`. -/
theorem wf_flush_advance {s : State} {ctx : Ctx} (hwf : WF s) (hctx : CtxInv s ctx)
    (fn : String) (en c' : ℚ) (hc' : s.currentTime ≤ c')
    (hen_lo : ctx.textStartTime ≤ en) (hen_hi : en ≤ c') :
    WF { flushBuf s ctx en fn with currentTime := c' } ∧
    (∀ a, ((flushBuf s ctx en fn).events.filter (pk .tx)).getLast? = some a →
        ∀ v, a.endTime = some v → v ≤ max en ctx.textStartTime) := by
  unfold flushBuf addTextEvent
  by_cases h : jsTrim (String.join ctx.textBuffer).data = []
  · rw [if_pos h]
    constructor
    · refine wf_advance hwf (c' - s.currentTime) (by linarith) rfl (by ring) ?_
        hwf.imgKeys hwf.chrKeys
      intro k'
      cases k' with
      | tx => rfl
      | vid => rfl
      | bgmk => rfl
      | bgk => rfl
      | img l => rfl
      | chr n => rfl
    · intro a ha v hv
      exact le_trans (hctx.last_le a ha v hv) (le_max_right _ _)
  · rw [if_neg h]
    have hptr_tx : pointerOf s PairKey.tx = none := rfl
    constructor
    · refine wf_pushClosed hwf PairKey.tx
        { type := .text, speaker := ctx.currentSpeaker,
          text := some (lstr (jsTrim (String.join ctx.textBuffer).data)),
          startTime := ctx.textStartTime, endTime := some en, filename := fn }
        rfl hptr_tx en rfl hctx.tst_le hen_lo ?_ (c' - s.currentTime) (by linarith)
        (by linarith) rfl (by ring) ?_ hwf.imgKeys hwf.chrKeys
      · intro a ha
        have h0 := hwf.ptr .tx
        rw [hptr_tx] at h0
        have hamem := getLast?_mem_self ha
        rcases Option.ne_none_iff_exists'.mp (h0 a hamem) with ⟨v, hv⟩
        refine ⟨v, hv, ?_, ?_⟩
        · exact hwf.core.start_le_end a (List.mem_filter.mp hamem).1 v hv
        · exact hctx.last_le a ha v hv
      · intro k'
        cases k' with
        | tx => rfl
        | vid => rfl
        | bgmk => rfl
        | bgk => rfl
        | img l => rfl
        | chr n => rfl
    · intro a ha v hv
      rw [List.filter_append] at ha
      have hfe :
          List.filter (pk .tx)
            [({ type := .text, speaker := ctx.currentSpeaker,
                text := some (lstr (jsTrim (String.join ctx.textBuffer).data)),
                startTime := ctx.textStartTime, endTime := some en,
                filename := fn } : Event)] =
          [({ type := .text, speaker := ctx.currentSpeaker,
              text := some (lstr (jsTrim (String.join ctx.textBuffer).data)),
              startTime := ctx.textStartTime, endTime := some en,
              filename := fn } : Event)] := rfl
      rw [hfe, List.getLast?_concat] at ha
      injection ha with ha
      subst ha
      simp at hv
      rw [← hv]
      exact le_max_left _ _

/-- `pBlock` (page-wait handling) preserves the invariants. -/
theorem pBlock_ok {s : State} {ctx : Ctx} (hwf : WF s) (hctx : CtxInv s ctx)
    (fn : String) {cnt : Nat} (hcnt : 0 < cnt) :
    WF (pBlock s ctx fn cnt).1 ∧
    CtxInv (pBlock s ctx fn cnt).1 (pBlock s ctx fn cnt).2 ∧
    s.currentTime ≤ (pBlock s ctx fn cnt).1.currentTime := by
  have hq : (1 : ℚ) ≤ (cnt : ℚ) := by
    have h1 : (1 : Nat) ≤ cnt := hcnt
    exact_mod_cast h1
  have htst := hctx.tst_le
  unfold pBlock
  by_cases hbuf : ctx.textBuffer = []
  · have hdec : decide ¬ ctx.textBuffer = [] = false := by simp [hbuf]
    rw [hdec]
    simp only [Bool.false_eq_true, if_false]
    refine ⟨?_, ⟨le_refl _, ?_⟩, ?_⟩
    · refine wf_advance hwf (cnt : ℚ) (by positivity) rfl rfl ?_ hwf.imgKeys hwf.chrKeys
      intro k'
      cases k' with
      | tx => rfl
      | vid => rfl
      | bgmk => rfl
      | bgk => rfl
      | img l => rfl
      | chr n => rfl
    · intro a ha v hv
      have h3 := hctx.last_le a ha v hv
      show v ≤ s.currentTime + (cnt : ℚ)
      linarith
    · show s.currentTime ≤ s.currentTime + (cnt : ℚ)
      linarith
  · have hdec : decide ¬ ctx.textBuffer = [] = true := by simp [hbuf]
    rw [hdec]
    simp only [if_true]
    have hflt := flushBuf_time s ctx (s.currentTime + 1) fn
    have hfa := wf_flush_advance hwf hctx fn (s.currentTime + 1)
      (s.currentTime + (cnt : ℚ)) (by linarith) (by linarith) (by linarith)
    refine ⟨?_, ⟨le_refl _, ?_⟩, ?_⟩
    · rw [hflt]
      exact hfa.1
    · intro a ha v hv
      have h2 := hfa.2 a ha v hv
      show v ≤ (flushBuf s ctx (s.currentTime + 1) fn).currentTime + (cnt : ℚ)
      rw [hflt]
      rcases max_cases (s.currentTime + 1) ctx.textStartTime with ⟨hm, _⟩ | ⟨hm, _⟩ <;>
        rw [hm] at h2 <;> linarith
    · show s.currentTime ≤ (flushBuf s ctx (s.currentTime + 1) fn).currentTime + (cnt : ℚ)
      rw [hflt]
      linarith

/-- `lBlock` (line-wait handling) preserves the invariants. -/
theorem lBlock_ok {s : State} {ctx : Ctx} (hwf : WF s) (hctx : CtxInv s ctx)
    {cnt : Nat} :
    WF (lBlock s ctx cnt).1 ∧
    CtxInv (lBlock s ctx cnt).1 (lBlock s ctx cnt).2 ∧
    s.currentTime ≤ (lBlock s ctx cnt).1.currentTime := by
  unfold lBlock
  refine ⟨?_, ⟨?_, ?_⟩, ?_⟩
  · refine wf_advance hwf (cnt : ℚ) (by positivity) rfl rfl ?_ hwf.imgKeys hwf.chrKeys
    intro k'
    cases k' with
    | tx => rfl
    | vid => rfl
    | bgmk => rfl
    | bgk => rfl
    | img l => rfl
    | chr n => rfl
  · show ctx.textStartTime ≤ s.currentTime + (cnt : ℚ)
    have := hctx.tst_le
    have h2 : (0 : ℚ) ≤ (cnt : ℚ) := by positivity
    linarith
  · intro a ha v hv
    exact hctx.last_le a ha v hv
  · show s.currentTime ≤ s.currentTime + (cnt : ℚ)
    have h2 : (0 : ℚ) ≤ (cnt : ℚ) := by positivity
    linarith

/-- `cmBlock` (message-clear handling) preserves the invariants. -/
theorem cmBlock_ok {s : State} {ctx : Ctx} (hwf : WF s) (hctx : CtxInv s ctx)
    (fn : String) {cnt : Nat} (hcnt : 0 < cnt) :
    WF (cmBlock s ctx fn cnt).1 ∧
    CtxInv (cmBlock s ctx fn cnt).1 (cmBlock s ctx fn cnt).2 ∧
    s.currentTime ≤ (cmBlock s ctx fn cnt).1.currentTime := by
  have hq : (1 : ℚ) ≤ (cnt : ℚ) := by
    have h1 : (1 : Nat) ≤ cnt := hcnt
    exact_mod_cast h1
  have htst := hctx.tst_le
  unfold cmBlock
  by_cases hbuf : ctx.textBuffer = []
  · have hdec : decide ¬ ctx.textBuffer = [] = false := by simp [hbuf]
    rw [hdec]
    simp only [Bool.false_eq_true, if_false]
    by_cases hadv : (ctx.hasVisualContent || ctx.firstCmSkipped) = true
    · rw [if_pos hadv, if_pos hadv]
      refine ⟨?_, ⟨le_refl _, ?_⟩, ?_⟩
      · refine wf_advance hwf (cnt : ℚ) (by positivity) rfl rfl ?_ hwf.imgKeys hwf.chrKeys
        intro k'
        cases k' with
        | tx => rfl
        | vid => rfl
        | bgmk => rfl
        | bgk => rfl
        | img l => rfl
        | chr n => rfl
      · intro a ha v hv
        have h3 := hctx.last_le a ha v hv
        show v ≤ s.currentTime + (cnt : ℚ)
        linarith
      · show s.currentTime ≤ s.currentTime + (cnt : ℚ)
        linarith
    · rw [if_neg hadv, if_neg hadv]
      refine ⟨hwf, ⟨le_refl _, ?_⟩, le_refl _⟩
      intro a ha v hv
      have h3 := hctx.last_le a ha v hv
      show v ≤ s.currentTime
      linarith
  · have hdec : decide ¬ ctx.textBuffer = [] = true := by simp [hbuf]
    rw [hdec]
    simp only [if_true]
    have hflt := flushBuf_time s ctx (s.currentTime + 1) fn
    have hfa := wf_flush_advance hwf hctx fn (s.currentTime + 1)
      (s.currentTime + (cnt : ℚ)) (by linarith) (by linarith) (by linarith)
    have hadv : (({ ctx with
          textBuffer := ([] : List String),
          hasVisualContent := true } : Ctx).hasVisualContent ||
        ({ ctx with
          textBuffer := ([] : List String),
          hasVisualContent := true } : Ctx).firstCmSkipped) = true := by
      simp
    rw [if_pos hadv, if_pos hadv]
    refine ⟨?_, ⟨le_refl _, ?_⟩, ?_⟩
    · rw [hflt]
      exact hfa.1
    · intro a ha v hv
      have h2 := hfa.2 a ha v hv
      show v ≤ (flushBuf s ctx (s.currentTime + 1) fn).currentTime + (cnt : ℚ)
      rw [hflt]
      rcases max_cases (s.currentTime + 1) ctx.textStartTime with ⟨hm, _⟩ | ⟨hm, _⟩ <;>
        rw [hm] at h2 <;> linarith
    · show s.currentTime ≤ (flushBuf s ctx (s.currentTime + 1) fn).currentTime + (cnt : ℚ)
      rw [hflt]
      linarith

/-- The speaker-line flush (`#name`) preserves the invariants. -/
theorem speakerFlush_ok {s : State} {ctx : Ctx} (hwf : WF s) (hctx : CtxInv s ctx)
    (fn : String) :
    WF (flushBuf s ctx s.currentTime fn) ∧
    (∀ a, ((flushBuf s ctx s.currentTime fn).events.filter (pk .tx)).getLast? = some a →
        ∀ v, a.endTime = some v → v ≤ (flushBuf s ctx s.currentTime fn).currentTime) ∧
    (flushBuf s ctx s.currentTime fn).currentTime = s.currentTime := by
  have htst := hctx.tst_le
  have hflt := flushBuf_time s ctx s.currentTime fn
  have hfa := wf_flush_advance hwf hctx fn s.currentTime s.currentTime (le_refl _)
    htst (le_refl _)
  refine ⟨?_, ?_, hflt⟩
  · have h1 := hfa.1
    set x := flushBuf s ctx s.currentTime fn with hx
    rw [← hflt] at h1
    exact h1
  · intro a ha v hv
    have h2 := hfa.2 a ha v hv
    rw [hflt]
    rcases max_cases s.currentTime ctx.textStartTime with ⟨hm, _⟩ | ⟨hm, _⟩ <;>
      rw [hm] at h2 <;> linarith

theorem ctxInv_set_extJump {s : State} {ctx : Ctx} (h : CtxInv s ctx) (c : Prop)
    [Decidable c] :
    CtxInv s (if c then { ctx with hasExternalJump := true } else ctx) := by
  split
  · exact ⟨h.tst_le, h.last_le⟩
  · exact h

theorem ctxInv_set_passed {s : State} {ctx : Ctx} (h : CtxInv s ctx) (c : Prop)
    [Decidable c] :
    CtxInv s (if c then { ctx with passedJumpAndStop := true } else ctx) := by
  split
  · exact ⟨h.tst_le, h.last_le⟩
  · exact h

/-- One line of the `processFile` loop preserves the invariants, and the
clock never decreases. -/
theorem lineStep_ok {s : State} {ctx : Ctx} (hwf : WF s) (hctx : CtxInv s ctx)
    (fn : String) (n : Nat) (line : List Char) :
    WF (lineStep s ctx fn n line).1 ∧
    CtxInv (lineStep s ctx fn n line).1 (lineStep s ctx fn n line).2.1 ∧
    s.currentTime ≤ (lineStep s ctx fn n line).1.currentTime := by
  unfold lineStep
  by_cases h1 : startsWithL [';'] (jsTrim line) = true
  · rw [if_pos h1]
    exact ⟨hwf, hctx, le_refl _⟩
  · rw [if_neg h1]
    simp only []
    have hctx1 : CtxInv s (if hasJumpFlag (jsTrim line) = true then
        { ctx with hasExternalJump := true } else ctx) :=
      ctxInv_set_extJump hctx _
    generalize hctxeq : (if hasJumpFlag (jsTrim line) = true then
        { ctx with hasExternalJump := true } else ctx) = ctx1
    rw [hctxeq] at hctx1
    have htst1 : ctx1.textStartTime = ctx.textStartTime := by
      rw [← hctxeq]
      split <;> rfl
    by_cases h2 : ((jsTrim line) = ['[','s',']'] ||
        startsWithL ['[','s',' '] (jsTrim line)) = true
    · rw [if_pos h2]
      exact ⟨hwf, ctxInv_set_passed hctx1 _, le_refl _⟩
    · rw [if_neg h2]
      by_cases h3 : startsWithL ['*'] (jsTrim line) = true
      · rw [if_pos h3]
        split
        · exact ⟨hwf, hctx1, le_refl _⟩
        · exact ⟨hwf, hctx1, le_refl _⟩
      · rw [if_neg h3]
        by_cases h4 : startsWithL ['@'] (jsTrim line) = true
        · rw [if_pos h4]
          by_cases hS : toLowerL ((jsTrim ((jsTrim line).drop 1)).takeWhile
              (fun c => !isWS c)) = ['s']
          · rw [if_pos hS]
            exact ⟨hwf, ctxInv_set_passed hctx1 _, le_refl _⟩
          · rw [if_neg hS]
            have hs1 := processAtCommand_ok hwf (jsTrim line) fn n
            have hctx1s : CtxInv (processAtCommand s (jsTrim line) fn n) ctx1 :=
              ctxInv_transport hctx1 hs1.tx_eq hs1.time_mono rfl
            by_cases hP : toLowerL ((jsTrim ((jsTrim line).drop 1)).takeWhile
                (fun c => !isWS c)) = ['p']
            · rw [if_pos hP]
              have hp := pBlock_ok hs1.wf hctx1s fn (by norm_num : 0 < 1)
              exact ⟨hp.1, hp.2.1, le_trans hs1.time_mono hp.2.2⟩
            · rw [if_neg hP]
              by_cases hL : toLowerL ((jsTrim ((jsTrim line).drop 1)).takeWhile
                  (fun c => !isWS c)) = ['l']
              · rw [if_pos hL]
                have hp := @lBlock_ok _ _ hs1.wf hctx1s 1
                exact ⟨hp.1, hp.2.1, le_trans hs1.time_mono hp.2.2⟩
              · rw [if_neg hL]
                by_cases hCM : toLowerL ((jsTrim ((jsTrim line).drop 1)).takeWhile
                    (fun c => !isWS c)) = ['c','m']
                · rw [if_pos hCM]
                  have hp := cmBlock_ok hs1.wf hctx1s fn (by norm_num : 0 < 1)
                  exact ⟨hp.1, hp.2.1, le_trans hs1.time_mono hp.2.2⟩
                · rw [if_neg hCM]
                  exact ⟨hs1.wf, hctx1s, hs1.time_mono⟩
        · rw [if_neg h4]
          by_cases h5 : startsWithL ['#'] (jsTrim line) = true
          · rw [if_pos h5]
            have hsp := speakerFlush_ok hwf hctx1 fn
            by_cases hfl : decide (¬ ctx1.textBuffer = []) = true
            · rw [if_pos hfl, if_pos hfl]
              refine ⟨hsp.1, ⟨le_refl _, ?_⟩, le_of_eq hsp.2.2.symm⟩
              intro a ha v hv
              exact hsp.2.1 a ha v hv
            · rw [if_neg hfl, if_neg hfl]
              refine ⟨hwf, ⟨le_refl _, ?_⟩, le_refl _⟩
              intro a ha v hv
              have h6 := hctx1.last_le a ha v hv
              have h7 := hctx1.tst_le
              show v ≤ s.currentTime
              linarith
          · rw [if_neg h5]
            simp only []
            have hr := processLineWithTags_ok hwf (jsTrim line) fn n
            have hctxA : CtxInv (processLineWithTags s (jsTrim line) fn n).1
                { ctx1 with textBuffer :=
                    ctx1.textBuffer ++ (processLineWithTags s (jsTrim line) fn n).2 } :=
              ctxInv_transport hctx1 hr.tx_eq hr.time_mono rfl
            by_cases hpc : countTag ['p'] (jsTrim line) > 0
            · rw [if_pos hpc]
              have hp := pBlock_ok hr.wf hctxA fn hpc
              by_cases hlc : countTag ['l'] (jsTrim line) > 0
              · rw [if_pos hlc]
                have hl := @lBlock_ok _ _ hp.1 hp.2.1 (countTag ['l'] (jsTrim line))
                by_cases hcc : countTag ['c','m'] (jsTrim line) > 0
                · rw [if_pos hcc]
                  have hc := cmBlock_ok hl.1 hl.2.1 fn hcc
                  exact ⟨hc.1, hc.2.1, le_trans hr.time_mono
                    (le_trans hp.2.2 (le_trans hl.2.2 hc.2.2))⟩
                · rw [if_neg hcc]
                  exact ⟨hl.1, hl.2.1, le_trans hr.time_mono
                    (le_trans hp.2.2 hl.2.2)⟩
              · rw [if_neg hlc]
                by_cases hcc : countTag ['c','m'] (jsTrim line) > 0
                · rw [if_pos hcc]
                  have hc := cmBlock_ok hp.1 hp.2.1 fn hcc
                  exact ⟨hc.1, hc.2.1, le_trans hr.time_mono
                    (le_trans hp.2.2 hc.2.2)⟩
                · rw [if_neg hcc]
                  exact ⟨hp.1, hp.2.1, le_trans hr.time_mono hp.2.2⟩
            · rw [if_neg hpc]
              by_cases hlc : countTag ['l'] (jsTrim line) > 0
              · rw [if_pos hlc]
                have hl := @lBlock_ok _ _ hr.wf hctxA (countTag ['l'] (jsTrim line))
                by_cases hcc : countTag ['c','m'] (jsTrim line) > 0
                · rw [if_pos hcc]
                  have hc := cmBlock_ok hl.1 hl.2.1 fn hcc
                  exact ⟨hc.1, hc.2.1, le_trans hr.time_mono
                    (le_trans hl.2.2 hc.2.2)⟩
                · rw [if_neg hcc]
                  exact ⟨hl.1, hl.2.1, le_trans hr.time_mono hl.2.2⟩
              · rw [if_neg hlc]
                by_cases hcc : countTag ['c','m'] (jsTrim line) > 0
                · rw [if_pos hcc]
                  have hc := cmBlock_ok hr.wf hctxA fn hcc
                  exact ⟨hc.1, hc.2.1, le_trans hr.time_mono hc.2.2⟩
                · rw [if_neg hcc]
                  exact ⟨hr.wf, hctxA, hr.time_mono⟩

/-- The line loop of `processFile` preserves the invariants. -/
theorem processLines_ok (fn : String) :
    ∀ (L : List (List Char)) (s : State) (ctx : Ctx) (n : Nat), WF s → CtxInv s ctx →
      WF (processLines fn s ctx n L).1 ∧
      CtxInv (processLines fn s ctx n L).1 (processLines fn s ctx n L).2 ∧
      s.currentTime ≤ (processLines fn s ctx n L).1.currentTime := by
  intro L
  induction L with
  | nil =>
    intro s ctx n hwf hctx
    exact ⟨hwf, hctx, le_refl _⟩
  | cons l rest ih =>
    intro s ctx n hwf hctx
    have hl := lineStep_ok hwf hctx fn n l
    unfold processLines
    by_cases hb : (lineStep s ctx fn n l).2.2 = true
    · rw [if_pos hb]
      exact ⟨hl.1, hl.2.1, hl.2.2⟩
    · rw [if_neg hb]
      have hrest := ih (lineStep s ctx fn n l).1 (lineStep s ctx fn n l).2.1 (n + 1)
        hl.1 hl.2.1
      exact ⟨hrest.1, hrest.2.1, le_trans hl.2.2 hrest.2.2⟩

/-- Any context whose `textStartTime` is the current clock is consistent
with a well-formed state. -/
theorem ctxInv_fresh {s : State} (hwf : WF s) (ctx : Ctx)
    (htst : ctx.textStartTime = s.currentTime) : CtxInv s ctx := by
  constructor
  · rw [htst]
  · intro a ha v hv
    rw [htst]
    have hamem := getLast?_mem_self ha
    exact hwf.core.end_le a (List.mem_filter.mp hamem).1
      (pk_type_ne_se (List.mem_filter.mp hamem).2) v hv

/-- The end-of-file flush after the line loop preserves well-formedness and
the clock. -/
theorem flushTail_ok {s : State} {ctx : Ctx} (hwf : WF s) (hctx : CtxInv s ctx)
    (fn : String) :
    WF (if ctx.textBuffer ≠ [] then flushBuf s ctx s.currentTime fn else s) ∧
    (if ctx.textBuffer ≠ [] then flushBuf s ctx s.currentTime fn
      else s).currentTime = s.currentTime := by
  split
  · have hsp := speakerFlush_ok hwf hctx fn
    exact ⟨hsp.1, hsp.2.2⟩
  · exact ⟨hwf, rfl⟩

/-- `processFile` preserves well-formedness and never rewinds the clock. -/
theorem processFile_ok {s : State} (hwf : WF s) (content : String) (fn : String) :
    WF (processFile s content fn) ∧
    s.currentTime ≤ (processFile s content fn).currentTime := by
  unfold processFile
  cases hv : s.activeVideo with
  | none =>
    simp only []
    have hr := processLines_ok fn (splitLines content.data) s
      { currentSpeaker := none, textBuffer := [], textStartTime := s.currentTime,
        hasExternalJump := false, passedJumpAndStop := false,
        hasVisualContent := false, firstCmSkipped := false } 1 hwf
      (ctxInv_fresh hwf _ rfl)
    have htail := flushTail_ok hr.1 hr.2.1 fn
    exact ⟨htail.1, le_trans hr.2.2 (le_of_eq htail.2.symm)⟩
  | some i =>
    simp only []
    have hwf1 : WF { s with
        events := closeIdx s.events i s.currentTime,
        activeVideo := none } := by
      refine wf_closePair hwf PairKey.vid i ?_ rfl rfl rfl ?_ hwf.imgKeys hwf.chrKeys
      · rw [show pointerOf s PairKey.vid = s.activeVideo from rfl, hv]
      · intro k' hk'
        cases k' with
        | vid => exact absurd rfl hk'
        | tx => rfl
        | bgk => rfl
        | bgmk => rfl
        | img l => rfl
        | chr nm => rfl
    have hr := processLines_ok fn (splitLines content.data)
      { s with events := closeIdx s.events i s.currentTime, activeVideo := none }
      { currentSpeaker := none, textBuffer := [], textStartTime := s.currentTime,
        hasExternalJump := false, passedJumpAndStop := false,
        hasVisualContent := false, firstCmSkipped := false } 1 hwf1
      (ctxInv_fresh hwf1 _ rfl)
    have htail := flushTail_ok hr.1 hr.2.1 fn
    exact ⟨htail.1, le_trans hr.2.2 (le_of_eq htail.2.symm)⟩

/-- The initial state satisfies the invariant. -/
theorem wf_initState : WF initState := by
  constructor
  · constructor
    · intro e he; cases he
    · intro e he; cases he
    · intro e he; cases he
    · intro e he; cases he
    · intro k; simp [initState]
  · intro k
    cases k with
    | tx => intro e he; cases he
    | bgk => intro e he; cases he
    | vid => intro e he; cases he
    | bgmk => intro e he; cases he
    | img l => intro e he; cases he
    | chr nm => intro e he; cases he
  · exact List.nodup_nil
  · exact List.nodup_nil

/-- Closing the event of an active slot, in the shape used by `finalize`. -/
theorem wf_closeActive {s : State} (hwf : WF s) (k : PairKey) {s' : State}
    (hev : s'.events = closeActive s.events (pointerOf s k) s.currentTime)
    (ht : s'.currentTime = s.currentTime)
    (hptrk : pointerOf s' k = none)
    (hptro : ∀ k', k' ≠ k → pointerOf s' k' = pointerOf s k')
    (himg : (s'.activeImages.map Prod.fst).Nodup)
    (hchr : (s'.activeCharas.map Prod.fst).Nodup) : WF s' := by
  cases h : pointerOf s k with
  | some i =>
    rw [h] at hev
    exact wf_closePair hwf k i h hev ht hptrk hptro himg hchr
  | none =>
    rw [h] at hev
    have hev' : s'.events = s.events := hev
    constructor
    · rw [hev', ht]
      exact hwf.core
    · intro k'
      by_cases hk : k' = k
      · subst hk
        rw [hptrk, hev']
        have h0 := hwf.ptr k'
        rw [h] at h0
        exact h0
      · rw [hptro k' hk, hev']
        exact hwf.ptr k'
    · exact himg
    · exact hchr

/-- The `activeImages` loop of `finalize` closes each referenced event. -/
theorem finalize_fold_img_aux : ∀ (entries : List (String × Nat)) (s : State),
    WF s → s.activeImages = entries →
    WF { s with
      events := entries.foldl (finStep s.currentTime) s.events,
      activeImages := [] } := by
  intro entries
  induction entries with
  | nil =>
    intro s hwf hctx
    constructor
    · exact hwf.core
    · intro k
      cases k with
      | tx => exact hwf.ptr .tx
      | bgk => exact hwf.ptr .bgk
      | bgmk => exact hwf.ptr .bgmk
      | vid => exact hwf.ptr .vid
      | chr n => exact hwf.ptr (.chr n)
      | img l =>
        have h0 := hwf.ptr (.img l)
        show PtrInv s.events (pk (.img l)) (lookupA [] l)
        rw [show pointerOf s (.img l) = lookupA s.activeImages l from rfl, hctx] at h0
        exact h0
    · exact List.nodup_nil
    · exact hwf.chrKeys
  | cons p rest ih =>
    intro s hwf hctx
    have hp : pointerOf s (PairKey.img p.1) = some p.2 := by
      rw [show pointerOf s (PairKey.img p.1) = lookupA s.activeImages p.1 from rfl, hctx]
      exact lookupA_cons_of_pos rfl
    have h0 := hwf.ptr (.img p.1)
    rw [hp] at h0
    rcases h0 with ⟨e0, hget, _, hend, _⟩
    have hkeys : ((p :: rest).map Prod.fst).Nodup := by
      rw [← hctx]
      exact hwf.imgKeys
    have hnodup_rest : (rest.map Prod.fst).Nodup := by
      rw [List.map_cons, List.nodup_cons] at hkeys
      exact hkeys.2
    have hnotin : ¬ p.1 ∈ rest.map Prod.fst := by
      rw [List.map_cons, List.nodup_cons] at hkeys
      exact hkeys.1
    have hbody : finStep s.currentTime s.events p =
        closeIdx s.events p.2 s.currentTime := by
      unfold finStep
      rw [hget]
      simp only []
      have hjf : jsFalsyTime e0.endTime = true := by
        rw [hend]
        rfl
      rw [if_pos hjf]
    have hwf1 : WF { s with
        events := closeIdx s.events p.2 s.currentTime,
        activeImages := rest } := by
      refine wf_closePair hwf (PairKey.img p.1) p.2 hp rfl rfl ?_ ?_ hnodup_rest
        hwf.chrKeys
      · show lookupA rest p.1 = none
        exact lookupA_eq_none_of_not_mem_keys hnotin
      · intro k' hk'
        cases k' with
        | tx => rfl
        | vid => rfl
        | bgmk => rfl
        | bgk => rfl
        | chr n2 => rfl
        | img l2 =>
          have hne : ¬ l2 = p.1 := fun hh => hk' (by rw [hh])
          show lookupA rest l2 = lookupA s.activeImages l2
          rw [hctx, lookupA_cons_of_neg (by simpa using fun hh => hne hh.symm)]
    have hres := ih { s with
        events := closeIdx s.events p.2 s.currentTime,
        activeImages := rest } hwf1 rfl
    rw [List.foldl_cons, hbody]
    exact hres

/-- The `activeCharacters` loop of `finalize` closes each referenced event. -/
theorem finalize_fold_chr_aux : ∀ (entries : List (String × Nat)) (s : State),
    WF s → s.activeCharas = entries →
    WF { s with
      events := entries.foldl (finStep s.currentTime) s.events,
      activeCharas := [] } := by
  intro entries
  induction entries with
  | nil =>
    intro s hwf hctx
    constructor
    · exact hwf.core
    · intro k
      cases k with
      | tx => exact hwf.ptr .tx
      | bgk => exact hwf.ptr .bgk
      | bgmk => exact hwf.ptr .bgmk
      | vid => exact hwf.ptr .vid
      | img l => exact hwf.ptr (.img l)
      | chr n =>
        have h0 := hwf.ptr (.chr n)
        show PtrInv s.events (pk (.chr n)) (lookupA [] n)
        rw [show pointerOf s (.chr n) = lookupA s.activeCharas n from rfl, hctx] at h0
        exact h0
    · exact hwf.imgKeys
    · exact List.nodup_nil
  | cons p rest ih =>
    intro s hwf hctx
    have hp : pointerOf s (PairKey.chr p.1) = some p.2 := by
      rw [show pointerOf s (PairKey.chr p.1) = lookupA s.activeCharas p.1 from rfl, hctx]
      exact lookupA_cons_of_pos rfl
    have h0 := hwf.ptr (.chr p.1)
    rw [hp] at h0
    rcases h0 with ⟨e0, hget, _, hend, _⟩
    have hkeys : ((p :: rest).map Prod.fst).Nodup := by
      rw [← hctx]
      exact hwf.chrKeys
    have hnodup_rest : (rest.map Prod.fst).Nodup := by
      rw [List.map_cons, List.nodup_cons] at hkeys
      exact hkeys.2
    have hnotin : ¬ p.1 ∈ rest.map Prod.fst := by
      rw [List.map_cons, List.nodup_cons] at hkeys
      exact hkeys.1
    have hbody : finStep s.currentTime s.events p =
        closeIdx s.events p.2 s.currentTime := by
      unfold finStep
      rw [hget]
      simp only []
      have hjf : jsFalsyTime e0.endTime = true := by
        rw [hend]
        rfl
      rw [if_pos hjf]
    have hwf1 : WF { s with
        events := closeIdx s.events p.2 s.currentTime,
        activeCharas := rest } := by
      refine wf_closePair hwf (PairKey.chr p.1) p.2 hp rfl rfl ?_ ?_ hwf.imgKeys
        hnodup_rest
      · show lookupA rest p.1 = none
        exact lookupA_eq_none_of_not_mem_keys hnotin
      · intro k' hk'
        cases k' with
        | tx => rfl
        | vid => rfl
        | bgmk => rfl
        | bgk => rfl
        | img l2 => rfl
        | chr n2 =>
          have hne : ¬ n2 = p.1 := fun hh => hk' (by rw [hh])
          show lookupA rest n2 = lookupA s.activeCharas n2
          rw [hctx, lookupA_cons_of_neg (by simpa using fun hh => hne hh.symm)]
    have hres := ih { s with
        events := closeIdx s.events p.2 s.currentTime,
        activeCharas := rest } hwf1 rfl
    rw [List.foldl_cons, hbody]
    exact hres

/-- The state just before the `null → totalTime` sweep of `finalize`, with
the consumed active references cleared. -/
def finPhantom (s : State) : State :=
  { s with
    totalTime := s.currentTime,
    events := s.activeCharas.foldl (finStep s.currentTime)
      (s.activeImages.foldl (finStep s.currentTime)
        (closeActive (closeActive (closeActive s.events s.activeBgm s.currentTime)
          s.activeBg s.currentTime) s.activeVideo s.currentTime)),
    activeBgm := none, activeBg := none, activeVideo := none,
    activeImages := [], activeCharas := [] }

theorem finPhantom_wf {s : State} (hwf : WF s) : WF (finPhantom s) := by
  have h1 : WF { s with
      totalTime := s.currentTime,
      events := closeActive s.events s.activeBgm s.currentTime,
      activeBgm := none } := by
    refine wf_closeActive hwf PairKey.bgmk rfl rfl rfl ?_ hwf.imgKeys hwf.chrKeys
    intro k' hk'
    cases k' with
    | bgmk => exact absurd rfl hk'
    | tx => rfl
    | bgk => rfl
    | vid => rfl
    | img l => rfl
    | chr n => rfl
  have h2 : WF { s with
      totalTime := s.currentTime,
      events := closeActive (closeActive s.events s.activeBgm s.currentTime)
        s.activeBg s.currentTime,
      activeBgm := none, activeBg := none } := by
    refine wf_closeActive h1 PairKey.bgk rfl rfl rfl ?_ h1.imgKeys h1.chrKeys
    intro k' hk'
    cases k' with
    | bgk => exact absurd rfl hk'
    | tx => rfl
    | bgmk => rfl
    | vid => rfl
    | img l => rfl
    | chr n => rfl
  have h3 : WF { s with
      totalTime := s.currentTime,
      events := closeActive (closeActive (closeActive s.events s.activeBgm
        s.currentTime) s.activeBg s.currentTime) s.activeVideo s.currentTime,
      activeBgm := none, activeBg := none, activeVideo := none } := by
    refine wf_closeActive h2 PairKey.vid rfl rfl rfl ?_ h2.imgKeys h2.chrKeys
    intro k' hk'
    cases k' with
    | vid => exact absurd rfl hk'
    | tx => rfl
    | bgmk => rfl
    | bgk => rfl
    | img l => rfl
    | chr n => rfl
  have h4 := finalize_fold_img_aux s.activeImages { s with
      totalTime := s.currentTime,
      events := closeActive (closeActive (closeActive s.events s.activeBgm
        s.currentTime) s.activeBg s.currentTime) s.activeVideo s.currentTime,
      activeBgm := none, activeBg := none, activeVideo := none } h3 rfl
  have h5 := finalize_fold_chr_aux s.activeCharas { s with
      totalTime := s.currentTime,
      events := s.activeImages.foldl (finStep s.currentTime)
        (closeActive (closeActive (closeActive s.events s.activeBgm s.currentTime)
          s.activeBg s.currentTime) s.activeVideo s.currentTime),
      activeBgm := none, activeBg := none, activeVideo := none,
      activeImages := [] } h4 rfl
  exact h5

/-- `Rle` towards an event only reads its start time, which `closeNone`
keeps. -/
theorem rle_closeNone_right {t : ℚ} {a b : Event} (h : Rle a b) :
    Rle a (closeNone t b) := by
  rcases h with ⟨u, h1, h2, h3⟩
  refine ⟨u, h1, h2, ?_⟩
  unfold closeNone
  split
  · exact h3
  · exact h3

theorem closeNone_of_closed {t : ℚ} {a : Event} {u : ℚ} (h : a.endTime = some u) :
    closeNone t a = a := by
  unfold closeNone
  rw [if_neg (by simp [h])]

/-- The `null → totalTime` sweep can only touch the last event of a
chain-ordered track, so the chain survives. -/
theorem chain'_map_closeNone (t : ℚ) : ∀ (l : List Event), List.Chain' Rle l →
    List.Chain' Rle (l.map (closeNone t)) := by
  intro l
  induction l with
  | nil => intro _; exact List.chain'_nil
  | cons a l2 ih =>
    intro h
    cases l2 with
    | nil => exact List.chain'_singleton _
    | cons b l3 =>
      rw [List.chain'_cons] at h
      rw [List.map_cons, List.map_cons, List.chain'_cons]
      constructor
      · have hca : closeNone t a = a := by
          rcases h.1 with ⟨u, h1, _, _⟩
          exact closeNone_of_closed h1
        rw [hca]
        exact rle_closeNone_right h.1
      · have h2 := ih h.2
        rw [List.map_cons] at h2
        exact h2

theorem pk_closeNone (t : ℚ) (k : PairKey) (a : Event) :
    pk k (closeNone t a) = pk k a := by
  unfold closeNone
  split
  · rw [pk_endUpd]
  · rfl

/-- Filtering a track commutes with the `null → totalTime` sweep. -/
theorem filter_map_closeNone (t : ℚ) (k : PairKey) (l : List Event) :
    (l.map (closeNone t)).filter (pk k) = (l.filter (pk k)).map (closeNone t) := by
  induction l with
  | nil => rfl
  | cons a l2 ih =>
    rw [List.map_cons, List.filter_cons, List.filter_cons, pk_closeNone]
    by_cases hpa : pk k a = true
    · rw [if_pos hpa, if_pos hpa, List.map_cons, ih]
    · rw [if_neg hpa, if_neg hpa, ih]

/-- What `finalize` guarantees about every produced state: all events are
closed, start no later than they end, lie inside `[0, totalTime]` for
non-sound-effects, sound effects keep their fixed half-unit length, and
every pair track stays chain-ordered. -/
theorem finalize_props {s : State} (hwf : WF s) :
    (finalize s).totalTime = s.currentTime ∧
    (∀ e ∈ (finalize s).events, e.startTime ≤ s.currentTime ∧
      ∃ t, e.endTime = some t ∧ e.startTime ≤ t) ∧
    (∀ e ∈ (finalize s).events, e.type ≠ .se → ∀ t, e.endTime = some t →
      t ≤ s.currentTime) ∧
    (∀ e ∈ (finalize s).events, e.type = .se →
      e.endTime = some (e.startTime + 1/2)) ∧
    (∀ k, List.Chain' Rle ((finalize s).events.filter (pk k))) := by
  have hph := finPhantom_wf hwf
  have hcore : FWF (finPhantom s).events s.currentTime := hph.core
  have hev : (finalize s).events =
      (finPhantom s).events.map (closeNone s.currentTime) := rfl
  refine ⟨rfl, ?_, ?_, ?_, ?_⟩
  · intro e he
    rw [hev] at he
    rcases List.mem_map.mp he with ⟨e0, he0, hmap⟩
    cases h : e0.endTime with
    | none =>
      have hcn : closeNone s.currentTime e0 =
          { e0 with endTime := some s.currentTime } := by
        unfold closeNone
        rw [if_pos h]
      rw [← hmap, hcn]
      exact ⟨hcore.start_le e0 he0, s.currentTime, rfl, hcore.start_le e0 he0⟩
    | some u =>
      rw [← hmap, closeNone_of_closed h]
      exact ⟨hcore.start_le e0 he0, u, h, hcore.start_le_end e0 he0 u h⟩
  · intro e he hse t ht
    rw [hev] at he
    rcases List.mem_map.mp he with ⟨e0, he0, hmap⟩
    cases h : e0.endTime with
    | none =>
      have hcn : closeNone s.currentTime e0 =
          { e0 with endTime := some s.currentTime } := by
        unfold closeNone
        rw [if_pos h]
      rw [← hmap, hcn] at ht
      cases ht
      exact le_refl _
    | some u =>
      rw [← hmap, closeNone_of_closed h] at ht hse
      exact hcore.end_le e0 he0 hse t ht
  · intro e he hse
    rw [hev] at he
    rcases List.mem_map.mp he with ⟨e0, he0, hmap⟩
    cases h : e0.endTime with
    | none =>
      have hcn : closeNone s.currentTime e0 =
          { e0 with endTime := some s.currentTime } := by
        unfold closeNone
        rw [if_pos h]
      rw [← hmap, hcn] at hse
      have h2 := hcore.se_end e0 he0 hse
      rw [h] at h2
      cases h2
    | some u =>
      rw [← hmap, closeNone_of_closed h] at hse ⊢
      exact hcore.se_end e0 he0 hse
  · intro k
    rw [hev, filter_map_closeNone]
    exact chain'_map_closeNone s.currentTime _ (hcore.chain k)

/-- `processFiles` preserves well-formedness and clock monotonicity. -/
theorem processFiles_ok :
    ∀ (files : List (String × String)) (s : State), WF s →
      WF (processFiles s files) ∧ s.currentTime ≤ (processFiles s files).currentTime := by
  intro files
  induction files with
  | nil =>
    intro s hwf
    exact ⟨hwf, le_refl _⟩
  | cons f rest ih =>
    intro s hwf
    have h1 := processFile_ok hwf f.2 f.1
    have h2 := ih (processFile s f.2 f.1) h1.1
    exact ⟨h2.1, le_trans h1.2 h2.2⟩

/-- The chained master facts about every built timeline. -/
theorem buildTimeline_props (files : List (String × String)) :
    (∀ e ∈ (buildTimeline files).events,
      e.startTime ≤ (buildTimeline files).totalTime ∧
      ∃ t, e.endTime = some t ∧ e.startTime ≤ t) ∧
    (∀ e ∈ (buildTimeline files).events, e.type ≠ .se → ∀ t, e.endTime = some t →
      t ≤ (buildTimeline files).totalTime) ∧
    (∀ e ∈ (buildTimeline files).events, e.type = .se →
      e.endTime = some (e.startTime + 1/2)) ∧
    (∀ k, List.Chain' Rle ((buildTimeline files).events.filter (pk k))) := by
  have h0 := processFiles_ok files initState wf_initState
  have h := finalize_props h0.1
  rw [show (buildTimeline files).totalTime =
    (processFiles initState files).currentTime from h.1]
  exact ⟨h.2.1, h.2.2.1, h.2.2.2.1, h.2.2.2.2⟩

/-! ## Clock effects of the command handlers -/

theorem processBg_time (s : State) (params : Params) (fn : String) (ln : Nat) :
    (processBg s params fn ln).currentTime = s.currentTime := rfl

theorem processImage_time (s : State) (params : Params) (fn : String) (ln : Nat) :
    (processImage s params fn ln).currentTime = s.currentTime := rfl

theorem processFreeImage_time (s : State) (params : Params) :
    (processFreeImage s params).currentTime = s.currentTime := by
  unfold processFreeImage
  repeat' first
  | rfl
  | split
  | simp only []

theorem processCharaShow_time (s : State) (params : Params) (fn : String) (ln : Nat) :
    (processCharaShow s params fn ln).currentTime = s.currentTime := by
  unfold processCharaShow
  split
  · rfl
  · split
    · rfl
    · rfl

theorem processCharaHide_time (s : State) (params : Params) :
    (processCharaHide s params).currentTime = s.currentTime := by
  unfold processCharaHide
  split
  · rfl
  · split
    · rfl
    · split
      · rfl
      · rfl

theorem processCharaHideAll_time (s : State) :
    (processCharaHideAll s).currentTime = s.currentTime := rfl

theorem processVideo_time_open (s : State) (c : String) (params : Params)
    (fn : String) (ln : Nat) (hc : ¬ (c = "movie" ∨ c = "bgmovie")) :
    (processVideo s c params fn ln).currentTime = s.currentTime := by
  unfold processVideo
  rw [if_neg hc]
  cases s.activeVideo <;> rfl

theorem processVideo_time_blocking (s : State) (c : String) (params : Params)
    (fn : String) (ln : Nat) (hc : c = "movie" ∨ c = "bgmovie") :
    (processVideo s c params fn ln).currentTime = s.currentTime + 1 := by
  unfold processVideo
  rw [if_pos hc]
  cases s.activeVideo <;> rfl

theorem processWaitVideo_time (s : State) :
    (processWaitVideo s).currentTime = s.currentTime := by
  unfold processWaitVideo
  split <;> rfl

theorem processFreeVideo_time (s : State) :
    (processFreeVideo s).currentTime = s.currentTime := by
  unfold processFreeVideo
  split <;> rfl

theorem processBgmStart_time (s : State) (c : String) (params : Params)
    (fn : String) (ln : Nat) :
    (processBgmStart s c params fn ln).currentTime = s.currentTime := rfl

theorem processBgmStop_time (s : State) :
    (processBgmStop s).currentTime = s.currentTime := by
  unfold processBgmStop
  split <;> rfl

theorem processSe_time (s : State) (c : String) (params : Params)
    (fn : String) (ln : Nat) :
    (processSe s c params fn ln).currentTime = s.currentTime := rfl

/-- With a non-empty buffer holding real text, a page-wait flushes one text
event spanning from the recorded buffer start to one unit past the current
clock, then advances the clock by the occurrence count. -/
theorem pBlock_flush {s : State} {ctx : Ctx} (fn : String) (cnt : Nat)
    (hbuf : ¬ ctx.textBuffer = [])
    (htext : ¬ jsTrim (String.join ctx.textBuffer).data = []) :
    (pBlock s ctx fn cnt).1.events = s.events ++
      [{ type := .text, speaker := ctx.currentSpeaker,
         text := some (lstr (jsTrim (String.join ctx.textBuffer).data)),
         startTime := ctx.textStartTime, endTime := some (s.currentTime + 1),
         filename := fn }] ∧
    (pBlock s ctx fn cnt).1.currentTime = s.currentTime + (cnt : ℚ) ∧
    (pBlock s ctx fn cnt).2.textStartTime = s.currentTime + (cnt : ℚ) := by
  have hdec : decide (¬ ctx.textBuffer = []) = true := decide_eq_true hbuf
  unfold pBlock
  rw [hdec]
  simp only [if_true]
  unfold flushBuf addTextEvent
  rw [if_neg htext]
  exact ⟨rfl, rfl, rfl⟩

/-- A chain-ordered track of up-ordered intervals is pairwise ordered. -/
theorem pairwise_of_chain : ∀ (l : List Event), List.Chain' Rle l →
    List.Pairwise (fun a b => ∀ t, a.endTime = some t → t ≤ b.startTime) l := by
  intro l
  induction l with
  | nil => exact fun _ => List.Pairwise.nil
  | cons a l2 ih =>
    intro h
    cases l2 with
    | nil => exact List.pairwise_singleton _ _
    | cons b l3 =>
      rw [List.chain'_cons] at h
      have hp2 := ih h.2
      refine List.Pairwise.cons ?_ hp2
      intro x hx t ht
      rcases h.1 with ⟨u, hu, hau, hub⟩
      rw [ht] at hu
      obtain rfl := Option.some.inj hu
      rcases List.mem_cons.mp hx with rfl | hx
      · exact hub
      · have hbx : ∀ v, b.endTime = some v → v ≤ x.startTime :=
          (List.pairwise_cons.mp hp2).1 x hx
        cases l3 with
        | nil => cases hx
        | cons c l4 =>
          have hchain := h.2
          rw [List.chain'_cons] at hchain
          rcases hchain.1 with ⟨v, hv, hbv, _⟩
          have hvx := hbx v hv
          linarith

/-! ## The claims -/

/-- Claim C1 (counterexample): for the Scenario B input the single bgm
event ends at clock 0, not 1: its endTime list is `[some 0]`, and `0 ≠ 1`.
All tags of a line are processed before the line's page-wait count advances
the clock, so the stop command is evaluated at clock 0. -/
theorem claim_C1_counterexample :
    ((buildTimeline [("b.ks", "[playbgm storage=\"bgm1.mp3\"][p][stopbgm][p]")]).events.map
      (fun e => e.endTime) = [some 0]) ∧ ¬ ((0 : ℚ) = 1) := by
  constructor
  · with_unfolding_all rfl
  · norm_num

/-- Claim C1 (amended): the input `[playbgm storage="bgm1.mp3"][p][stopbgm][p]`
processed from a fresh session produces exactly one bgm event with storage
"bgm1.mp3", startTime 0 and endTime 0 — the stop command is evaluated at
clock 0, because every tag of a line runs before the line's page-wait count
advances the clock — and the session's totalTime is 2. -/
theorem claim_C1 :
    (buildTimeline [("b.ks", "[playbgm storage=\"bgm1.mp3\"][p][stopbgm][p]")]).events =
      [{ type := .bgm, storage := some "bgm1.mp3", command := some "playbgm",
         loop := some true, startTime := 0, endTime := some 0,
         filename := "b.ks", line := some 1 }] ∧
    (buildTimeline [("b.ks", "[playbgm storage=\"bgm1.mp3\"][p][stopbgm][p]")]).totalTime
      = 2 := by
  constructor
  · with_unfolding_all rfl
  · with_unfolding_all rfl

/-- Claim C2 (counterexample): two `playse` commands on one line yield two
sound-effect events that both span `[0, 1/2]`: the second starts before the
first ends, so the no-overlap property fails on the se channel. -/
theorem claim_C2_counterexample :
    ((buildTimeline
        [("s.ks", "[playse storage=\"a.mp3\"][playse storage=\"b.mp3\"]")]).events.map
      (fun e => (e.type, e.startTime, e.endTime)) =
      [(.se, 0, some (1/2)), (.se, 0, some (1/2))]) ∧ ¬ ((1 : ℚ)/2 ≤ 0) := by
  constructor
  · with_unfolding_all rfl
  · norm_num

/-- Claim C2 (amended): for every `(channel, subKey)` pair with open/close
interval tracking — text, background, video, bgm, image layers, characters —
the finalized events of that pair, in creation order (which is startTime
order, as consecutive events satisfy end ≤ next start), are pairwise
non-overlapping.  Sound effects carry no such pair: they are created closed
with a fixed half-unit length, and two issued at the same clock overlap. -/
theorem claim_C2 : ∀ (files : List (String × String)) (k : PairKey),
    List.Pairwise (fun a b => ∀ t, a.endTime = some t → t ≤ b.startTime)
      ((buildTimeline files).events.filter (pk k)) :=
  fun files k => pairwise_of_chain _ ((buildTimeline_props files).2.2.2 k)

/-- Claim C3 (counterexample): with `[jump storage="next.ks" target="*x"][s]`
on ONE line, the `[s]` is not recognised (the stop check is line-level), so
processing does not halt at the later label: the `[bg storage="after.png"]`
line after the label still produces an event (from line 3). -/
theorem claim_C3_counterexample :
    ((buildTimeline [("f.ks",
        "[jump storage=\"next.ks\" target=\"*x\"][s]\n*label\n[bg storage=\"after.png\"]")]).events.map
      (fun e => (e.storage, e.line))) = [(some "after.png", some 3)] := by
  with_unfolding_all rfl

/-- Claim C3 (amended): when the stop tag stands on its own line — file
content `[jump storage="next.ks" target="*x"]` newline `[s]` newline
`*label` newline — processing halts at the label line: appending ANY
further content after the label leaves the build unchanged, and no events
at all are derived from such a file. -/
theorem claim_C3 : ∀ (post : List Char),
    buildTimeline [("f.ks",
      lstr (("[jump storage=\"next.ks\" target=\"*x\"]\n[s]\n*label\n").data ++ post))] =
      buildTimeline [("f.ks", "[jump storage=\"next.ks\" target=\"*x\"]\n[s]\n*label\n")] ∧
    (buildTimeline [("f.ks",
      lstr (("[jump storage=\"next.ks\" target=\"*x\"]\n[s]\n*label\n").data ++ post))]).events
      = [] := by
  intro post
  constructor
  · with_unfolding_all rfl
  · with_unfolding_all rfl

/-- Claim C4 (counterexample): a first-encountered line `[cm][cm]` (n = 2,
no prior pacing or visual content) advances the clock by 0 units, not the
claimed n − 1 = 1: the whole first message-clear batch is skipped. -/
theorem claim_C4_counterexample :
    ((buildTimeline [("c.ks", "[cm][cm]")]).totalTime = 0) ∧ ¬ ((0 : ℚ) = 2 - 1) := by
  constructor
  · with_unfolding_all rfl
  · norm_num

/-- Claim C4 (amended): for EVERY state, context and occurrence count n,
a message-clear batch handled by `cmBlock` (the `[cm]`-tag line batch and
the `@cm` form, which is the batch of one) advances the clock by exactly n
units whenever text is buffered or visual content / pacing has occurred or
the one-shot skip was already consumed — and the first-encountered batch
before any of those advances the clock by 0 units, for every n (not n − 1),
consuming the one-shot flag.  Concretely: a fresh `[cm][cm]` ends at
totalTime 0; `[cm][cm]`, `[cm][cm]`, `[cm]` on successive lines yield
0 + 2 + 1 = 3; `[p]` then `[cm][cm]` yields 1 + 2 = 3; `@cm` then `[cm]`
yields 0 + 1 = 1. -/
theorem claim_C4 :
    (∀ (s : State) (ctx : Ctx) (fn : String) (cnt : Nat),
      ¬ ctx.textBuffer = [] ∨ ctx.hasVisualContent = true ∨ ctx.firstCmSkipped = true →
      (cmBlock s ctx fn cnt).1.currentTime = s.currentTime + (cnt : ℚ)) ∧
    (∀ (s : State) (ctx : Ctx) (fn : String) (cnt : Nat),
      ctx.textBuffer = [] → ctx.hasVisualContent = false → ctx.firstCmSkipped = false →
      (cmBlock s ctx fn cnt).1.currentTime = s.currentTime ∧
      (cmBlock s ctx fn cnt).2.firstCmSkipped = true) ∧
    (buildTimeline [("c.ks", "[cm][cm]")]).totalTime = 0 ∧
    (buildTimeline [("c.ks", "[cm][cm]\n[cm][cm]\n[cm]")]).totalTime = 3 ∧
    (buildTimeline [("c.ks", "[p]\n[cm][cm]")]).totalTime = 3 ∧
    (buildTimeline [("c.ks", "@cm\n[cm]")]).totalTime = 1 := by
  refine ⟨?_, ?_, ?_, ?_, ?_, ?_⟩
  · intro s ctx fn cnt hadv
    unfold cmBlock
    by_cases hbuf : ctx.textBuffer = []
    · have hdec : decide ¬ ctx.textBuffer = [] = false := by simp [hbuf]
      rw [hdec]
      simp only [Bool.false_eq_true, if_false]
      have hor : (ctx.hasVisualContent || ctx.firstCmSkipped) = true := by
        rcases hadv with h | h | h
        · exact absurd hbuf h
        · rw [h, Bool.true_or]
        · rw [h, Bool.or_true]
      rw [if_pos hor]
    · have hdec : decide ¬ ctx.textBuffer = [] = true := by simp [hbuf]
      rw [hdec]
      simp only [if_true]
      have hadv2 : (({ ctx with
            textBuffer := ([] : List String),
            hasVisualContent := true } : Ctx).hasVisualContent ||
          ({ ctx with
            textBuffer := ([] : List String),
            hasVisualContent := true } : Ctx).firstCmSkipped) = true := by
        simp
      rw [if_pos hadv2]
      show (flushBuf s ctx (s.currentTime + 1) fn).currentTime + (cnt : ℚ)
        = s.currentTime + (cnt : ℚ)
      rw [flushBuf_time]
  · intro s ctx fn cnt hbuf hvc hskip
    unfold cmBlock
    have hdec : decide ¬ ctx.textBuffer = [] = false := by simp [hbuf]
    rw [hdec]
    simp only [Bool.false_eq_true, if_false]
    have hor : (ctx.hasVisualContent || ctx.firstCmSkipped) = false := by
      rw [hvc, hskip]
      rfl
    rw [if_neg (by rw [hor]; exact Bool.false_ne_true),
        if_neg (by rw [hor]; exact Bool.false_ne_true)]
    exact ⟨rfl, rfl⟩
  · with_unfolding_all rfl
  · with_unfolding_all rfl
  · with_unfolding_all rfl
  · with_unfolding_all rfl

/-- Claim C4 (witness): the two branches of the batch rule at count 2 — a
fresh context advances 0 and consumes the flag; a consumed flag advances
the full 2 units. -/
theorem claim_C4_witness :
    (cmBlock initState
      { currentSpeaker := none, textBuffer := [], textStartTime := 0,
        hasExternalJump := false, passedJumpAndStop := false,
        hasVisualContent := false, firstCmSkipped := false } "c.ks" 2).1.currentTime
      = initState.currentTime ∧
    (cmBlock initState
      { currentSpeaker := none, textBuffer := [], textStartTime := 0,
        hasExternalJump := false, passedJumpAndStop := false,
        hasVisualContent := false, firstCmSkipped := true } "c.ks" 2).1.currentTime
      = initState.currentTime + ((2 : Nat) : ℚ) :=
  ⟨(claim_C4.2.1 initState
      { currentSpeaker := none, textBuffer := [], textStartTime := 0,
        hasExternalJump := false, passedJumpAndStop := false,
        hasVisualContent := false, firstCmSkipped := false } "c.ks" 2 rfl rfl rfl).1,
   claim_C4.1 initState
      { currentSpeaker := none, textBuffer := [], textStartTime := 0,
        hasExternalJump := false, passedJumpAndStop := false,
        hasVisualContent := false, firstCmSkipped := true } "c.ks" 2
      (Or.inr (Or.inr rfl))⟩

/-- Claim C5: a page-wait flush on a non-empty buffer (holding real text)
emits one text event whose startTime is the recorded buffer start
`ctx.textStartTime` and whose endTime is the clock one pacing unit after the
flush trigger, after which the clock has advanced by the occurrence count;
and Scenario A — `[bg storage="room.png"]`, `#Alice`, `Hello.[p]` — builds
exactly one background event {storage "room.png", 0, closed at totalTime 1}
and one text event {speaker Alice, text "Hello.", 0, 1}. -/
theorem claim_C5 :
    (∀ (s : State) (ctx : Ctx) (fn : String) (cnt : Nat),
      ¬ ctx.textBuffer = [] → ¬ jsTrim (String.join ctx.textBuffer).data = [] →
      (pBlock s ctx fn cnt).1.events = s.events ++
        [{ type := .text, speaker := ctx.currentSpeaker,
           text := some (lstr (jsTrim (String.join ctx.textBuffer).data)),
           startTime := ctx.textStartTime, endTime := some (s.currentTime + 1),
           filename := fn }] ∧
      (pBlock s ctx fn cnt).1.currentTime = s.currentTime + (cnt : ℚ)) ∧
    (buildTimeline [("a.ks", "[bg storage=\"room.png\"]\n#Alice\nHello.[p]\n")]).events =
      [{ type := .bg, storage := some "room.png", startTime := 0, endTime := some 1,
         filename := "a.ks", line := some 1 },
       { type := .text, speaker := some "Alice", text := some "Hello.",
         startTime := 0, endTime := some 1, filename := "a.ks" }] ∧
    (buildTimeline [("a.ks", "[bg storage=\"room.png\"]\n#Alice\nHello.[p]\n")]).totalTime
      = 1 := by
  refine ⟨?_, ?_, ?_⟩
  · intro s ctx fn cnt hbuf htext
    exact ⟨(pBlock_flush fn cnt hbuf htext).1, (pBlock_flush fn cnt hbuf htext).2.1⟩
  · with_unfolding_all rfl
  · with_unfolding_all rfl

/-- Claim C5 (witness): the flush shape at a concrete state: buffer
`["Hello."]` with speaker Alice at clock 0 flushes to the Scenario A text
event. -/
theorem claim_C5_witness :
    (pBlock initState
      { currentSpeaker := some "Alice", textBuffer := ["Hello."], textStartTime := 0,
        hasExternalJump := false, passedJumpAndStop := false,
        hasVisualContent := false, firstCmSkipped := false } "a.ks" 1).1.events =
      [{ type := .text, speaker := some "Alice", text := some "Hello.",
         startTime := 0, endTime := some 1, filename := "a.ks" }] := by
  have h := (claim_C5.1 initState
    { currentSpeaker := some "Alice", textBuffer := ["Hello."], textStartTime := 0,
      hasExternalJump := false, passedJumpAndStop := false,
      hasVisualContent := false, firstCmSkipped := false } "a.ks" 1
    (by decide) (by decide)).1
  exact h.trans (by with_unfolding_all rfl)

/-- Claim C6 (counterexample): `movie` is a resource command yet advances
the clock: from the fresh state (clock 0) it leaves the clock at 1. -/
theorem claim_C6_counterexample :
    (processCommand initState "movie" [] "f" 1).currentTime = 1 ∧
    initState.currentTime = 0 ∧ ¬ ((1 : ℚ) = 0) := by
  refine ⟨?_, rfl, by norm_num⟩
  with_unfolding_all rfl

/-- Claim C6 (amended): every command other than the blocking `movie` and
`bgmovie` leaves the clock unchanged; `movie` and `bgmovie` advance it by
exactly one unit. -/
theorem claim_C6 : ∀ (s : State) (c : String) (params : Params) (fn : String) (ln : Nat),
    (¬ (c = "movie" ∨ c = "bgmovie") →
      (processCommand s c params fn ln).currentTime = s.currentTime) ∧
    ((c = "movie" ∨ c = "bgmovie") →
      (processCommand s c params fn ln).currentTime = s.currentTime + 1) := by
  intro s c params fn ln
  constructor
  · intro hc
    unfold processCommand
    split
    · exact processBg_time s params fn ln
    · exact processImage_time s params fn ln
    · exact processFreeImage_time s params
    · exact processCharaShow_time s params fn ln
    · exact processCharaHide_time s params
    · exact processCharaHideAll_time s
    · exact processVideo_time_open s _ params fn ln (by decide)
    · exact absurd (Or.inl rfl) hc
    · exact absurd (Or.inr rfl) hc
    · exact processWaitVideo_time s
    · exact processFreeVideo_time s
    · exact processBgmStart_time s _ params fn ln
    · exact processBgmStart_time s _ params fn ln
    · exact processBgmStop_time s
    · exact processBgmStop_time s
    · exact processSe_time s _ params fn ln
    · exact processSe_time s _ params fn ln
    · rfl
  · intro hc
    unfold processCommand
    split
    · exact absurd hc (by decide)
    · exact absurd hc (by decide)
    · exact absurd hc (by decide)
    · exact absurd hc (by decide)
    · exact absurd hc (by decide)
    · exact absurd hc (by decide)
    · exact absurd hc (by decide)
    · exact processVideo_time_blocking s _ params fn ln (Or.inl rfl)
    · exact processVideo_time_blocking s _ params fn ln (Or.inr rfl)
    · exact absurd hc (by decide)
    · exact absurd hc (by decide)
    · exact absurd hc (by decide)
    · exact absurd hc (by decide)
    · exact absurd hc (by decide)
    · exact absurd hc (by decide)
    · exact absurd hc (by decide)
    · exact absurd hc (by decide)
    · rcases hc with rfl | rfl <;> contradiction

/-- Claim C7 (counterexample): `chara_show` with no parameters (hence no
`name`) produces NO event: the handler aborts and returns the state
unchanged, contradicting "still produces an event". -/
theorem claim_C7_counterexample :
    processCommand initState "chara_show" [] "f" 1 = initState ∧
    (processCommand initState "chara_show" [] "f" 1).events = [] :=
  ⟨rfl, rfl⟩

/-- Claim C7 (amended): with no parameters, bg, image, playbgm, playse,
video and movie each still create exactly one event whose storage is unset —
but `chara_show` is an exception: a missing (or empty) `name` aborts without
creating any event. -/
theorem claim_C7 :
    (processCommand initState "bg" [] "f" 1).events =
      [{ type := .bg, storage := none, startTime := 0, endTime := none,
         filename := "f", line := some 1 }] ∧
    (processCommand initState "image" [] "f" 1).events =
      [{ type := .image, layer := some "0", storage := none, startTime := 0,
         endTime := none, filename := "f", line := some 1 }] ∧
    (processCommand initState "playbgm" [] "f" 1).events =
      [{ type := .bgm, command := some "playbgm", loop := some true, storage := none,
         startTime := 0, endTime := none, filename := "f", line := some 1 }] ∧
    (processCommand initState "playse" [] "f" 1).events =
      [{ type := .se, command := some "playse", buf := some "0", storage := none,
         startTime := 0, endTime := some (1/2), filename := "f", line := some 1 }] ∧
    (processCommand initState "video" [] "f" 1).events =
      [{ type := .video, command := some "video", storage := none, startTime := 0,
         endTime := none, filename := "f", line := some 1 }] ∧
    (processCommand initState "movie" [] "f" 1).events =
      [{ type := .video, command := some "movie", storage := none, startTime := 0,
         endTime := some 1, filename := "f", line := some 1 }] ∧
    processCommand initState "chara_show" [] "f" 1 = initState := by
  refine ⟨?_, ?_, ?_, ?_, ?_, ?_, rfl⟩ <;> with_unfolding_all rfl

/-- Claim C8 (counterexample): superseding a background at the clock value
at which it was opened yields a degenerate zero-length event — both bg
events of this build have startTime 0 and endTime 0, and `0 < 0` fails. -/
theorem claim_C8_counterexample :
    ((buildTimeline [("g.ks", "[bg storage=\"a.png\"][bg storage=\"b.png\"]")]).events.map
      (fun e => (e.startTime, e.endTime)) = [(0, some 0), (0, some 0)]) ∧
    ¬ ((0 : ℚ) < 0) := by
  constructor
  · with_unfolding_all rfl
  · exact lt_irrefl 0

/-- Claim C8 (amended): after finalize every event is closed and satisfies
the non-strict inequality startTime ≤ endTime; zero-length events DO occur
(an open event superseded, released or force-closed at its own start clock
is closed at that same value). -/
theorem claim_C8 : ∀ (files : List (String × String)),
    ∀ e ∈ (buildTimeline files).events, ∃ t, e.endTime = some t ∧ e.startTime ≤ t :=
  fun files e he => ((buildTimeline_props files).1 e he).2

/-- Claim C8 (witness): the amended bound at a concrete build and event. -/
theorem claim_C8_witness :
    ∃ t, ({ type := .bg, storage := some "a.png", startTime := 0, endTime := some 0,
            filename := "g.ks", line := some 1 } : Event).endTime = some t ∧
      ({ type := .bg, storage := some "a.png", startTime := 0, endTime := some 0,
         filename := "g.ks", line := some 1 } : Event).startTime ≤ t :=
  claim_C8 [("g.ks", "[bg storage=\"a.png\"][bg storage=\"b.png\"]")]
    { type := .bg, storage := some "a.png", startTime := 0, endTime := some 0,
      filename := "g.ks", line := some 1 } (by decide)

/-- Claim C9: `clear` resets the session to the one fixed initial state, so
clear → process the files → finalize, run twice in succession on the same
session, yields identical event lists (the second run's input state is
irrelevant). -/
theorem claim_C9 : ∀ (s0 : State) (files : List (String × String)),
    (finalize (processFiles (clear (finalize (processFiles (clear s0) files))) files)).events
      = (finalize (processFiles (clear s0) files)).events :=
  fun _ _ => rfl

/-- Claim C10: after finalize every non-sound-effect event ends no later
than totalTime; a sound effect created at clock t always ends at t + 1/2,
and finalize never clamps it: in the concrete build of a lone `playse` the
totalTime is 0 yet the se event ends at 1/2, which exceeds totalTime. -/
theorem claim_C10 :
    (∀ (files : List (String × String)), ∀ e ∈ (buildTimeline files).events,
      e.type ≠ .se → ∀ t, e.endTime = some t → t ≤ (buildTimeline files).totalTime) ∧
    (∀ (files : List (String × String)), ∀ e ∈ (buildTimeline files).events,
      e.type = .se → e.endTime = some (e.startTime + 1/2)) ∧
    (buildTimeline [("h.ks", "[playse storage=\"a.mp3\"]")]).totalTime = 0 ∧
    ((buildTimeline [("h.ks", "[playse storage=\"a.mp3\"]")]).events.map
      (fun e => e.endTime) = [some (1/2)]) ∧
    ¬ ((1 : ℚ)/2 ≤ 0) := by
  refine ⟨?_, ?_, ?_, ?_, ?_⟩
  · exact fun files => (buildTimeline_props files).2.1
  · exact fun files => (buildTimeline_props files).2.2.1
  · with_unfolding_all rfl
  · with_unfolding_all rfl
  · norm_num

end TimelineProc
